import Mathlib

/-!
Verification of the spreadsheet extraction engine of isa-backend
(src/teachers/utils.py): name normalization, sheet-key resolution, the value
coercers, worksheet validation and the grid extractor, shallowly embedded in
Lean.  Python strings are modelled as Lean strings, Python floats as exact
rationals, Python exceptions as an explicit error type threaded through
Except.  Character classes (word characters, whitespace, case mapping) are
modelled over the ASCII range.
-/

namespace IsaBackend

/-- Characters the regex class \w matches, ASCII range: letters, digits, underscore. -/
def isWordChar (c : Char) : Bool := c.isAlpha || c.isDigit || c = '_'

/-- Characters the regex class \s and str.strip treat as whitespace, ASCII range. -/
def isPySpace (c : Char) : Bool :=
  c = ' ' || c = '\t' || c = '\n' || c = '\r' || c = '\x0b' || c = '\x0c'

/-- Models str.lower on one character, ASCII range. -/
def pyLowerChar (c : Char) : Char :=
  if 65 ≤ c.toNat ∧ c.toNat ≤ 90 then Char.ofNat (c.toNat + 32) else c

/-- Models str.upper on one character, ASCII range. -/
def pyUpperChar (c : Char) : Char :=
  if 97 ≤ c.toNat ∧ c.toNat ≤ 122 then Char.ofNat (c.toNat - 32) else c

/-- Models str.strip on a character list: drop leading and trailing whitespace. -/
def pyStripList (s : List Char) : List Char :=
  ((s.dropWhile isPySpace).reverse.dropWhile isPySpace).reverse

/-- Models str.strip. -/
def pyStrip (s : String) : String := String.mk (pyStripList s.toList)

/-- Models str.upper. -/
def pyUpper (s : String) : String := String.mk (s.toList.map pyUpperChar)

/-- One pass of re.sub with pattern \s+ and replacement a single space: the
flag records whether the previous character was whitespace (inside a run
already replaced by one space). -/
def collapseWsAux : Bool → List Char → List Char
  | _, [] => []
  | inRun, c :: cs =>
    if isPySpace c then
      if inRun then collapseWsAux true cs else ' ' :: collapseWsAux true cs
    else c :: collapseWsAux false cs

/-- Models re.sub of whitespace runs by single spaces. -/
def collapseWs (s : List Char) : List Char := collapseWsAux false s

/-- The maximal runs of word characters of a string, with an accumulator
holding the run currently being read. -/
def wordsAux : List Char → List Char → List (List Char)
  | [], acc => if acc = [] then [] else [acc]
  | c :: cs, acc =>
    if isWordChar c then wordsAux cs (acc ++ [c])
    else if acc = [] then wordsAux cs [] else acc :: wordsAux cs []

/-- The maximal runs of word characters of a string (its standalone words). -/
def wordsOf (s : List Char) : List (List Char) := wordsAux s []

/-- The alternatives of the first title pattern of preprocess_name,
in order: lic, dr, ing, arq, ms, msc, sr, sra, srta (matched with a word
boundary on both sides and an optional trailing period). -/
def titleToks1 : List (List Char) :=
  ["lic".toList, "dr".toList, "ing".toList, "arq".toList, "ms".toList,
   "msc".toList, "sr".toList, "sra".toList, "srta".toList]

/-- The alternatives of the second title pattern of preprocess_name:
licenciado, doctor, ingeniero, maestro (word boundary on both sides). -/
def titleToks2 : List (List Char) :=
  ["licenciado".toList, "doctor".toList, "ingeniero".toList, "maestro".toList]

/-- Length of text consumed by a match of one of the token alternatives at
the start of s (a word boundary is assumed to hold before s): the token must
be a prefix and the next character, if any, must not be a word character;
with useDot a single following period is consumed as well. -/
def tokMatchLen (useDot : Bool) (toks : List (List Char)) (s : List Char) : Option Nat :=
  toks.findSome? fun t =>
    if t.isPrefixOf s then
      match s.drop t.length with
      | [] => some t.length
      | c :: _ =>
        if isWordChar c then none
        else if useDot && c = '.' then some (t.length + 1) else some t.length
    else none

/-- The scanner of re.sub for the title patterns.  The Nat counts characters
of a match still to be dropped; the Bool tells whether a word boundary holds
before the current position (the previous character was not a word
character, or the scan is at the start).  A match is attempted only at a
boundary, exactly as the leading word-boundary anchor of the patterns
demands; matched text is dropped from the output. -/
def reSubAux (useDot : Bool) (toks : List (List Char)) : Nat → Bool → List Char → List Char
  | _, _, [] => []
  | skip + 1, _, c :: cs => reSubAux useDot toks skip (!isWordChar c) cs
  | 0, bnd, c :: cs =>
    if bnd then
      match tokMatchLen useDot toks (c :: cs) with
      | some n => reSubAux useDot toks (n - 1) (!isWordChar c) cs
      | none => c :: reSubAux useDot toks 0 (!isWordChar c) cs
    else c :: reSubAux useDot toks 0 (!isWordChar c) cs

/-- Models one re.sub pass removing every title-token match. -/
def reSubTokens (useDot : Bool) (toks : List (List Char)) (s : List Char) : List Char :=
  reSubAux useDot toks 0 true s

/-- A Python datetime.date. -/
structure PyDate where
  year : Nat
  month : Nat
  day : Nat
deriving DecidableEq

/-- The time-of-day part of a Python datetime.datetime. -/
structure PyTime where
  hour : Nat
  minute : Nat
  second : Nat
deriving DecidableEq

/-- Dynamic Python values as they reach the utility functions: strings,
numbers (bool is a subclass of int in Python, so it is listed with them),
dates, datetimes, None and nothing else the code inspects. -/
inductive PyValue where
  | str (s : String)
  | int (n : ℤ)
  | float (q : ℚ)
  | bool (b : Bool)
  | pynone
  | dateV (d : PyDate)
  | datetimeV (d : PyDate) (t : PyTime)
deriving DecidableEq

/-- Models preprocess_name from src/teachers/utils.py: non-strings map to
the empty string; a string is lowercased, the two title patterns are
substituted away (each pass followed by str.strip), whitespace runs are
collapsed to single spaces and the ends stripped. -/
def preprocess_name (v : PyValue) : String :=
  match v with
  | .str s =>
    let p0 := s.toList.map pyLowerChar
    let p1 := pyStripList (reSubTokens true titleToks1 p0)
    let p2 := pyStripList (reSubTokens false titleToks2 p1)
    String.mk (pyStripList (collapseWs p2))
  | _ => ""

/-- Characters allowed in a sheet key by the extraction pattern. -/
def isKeyChar (c : Char) : Bool := c.isAlpha || c.isDigit || c = '-' || c = '_'

/-- The literal part of the sheet-key pattern. -/
def sheetKeyLit : List Char := "/spreadsheets/d/".toList

/-- Models re.search of the sheet-key pattern: at each position in turn, try
the literal followed by a nonempty greedy run of key characters; the first
matching position wins. -/
def findSheetKey : List Char → Option (List Char)
  | [] => none
  | c :: cs =>
    match (if sheetKeyLit.isPrefixOf (c :: cs) then
             match (c :: cs).drop sheetKeyLit.length with
             | [] => none
             | k :: ks => if isKeyChar k then some (k :: ks.takeWhile isKeyChar) else none
           else none) with
    | some key => some key
    | none => findSheetKey cs

/-- Models extract_sheet_key_from_url from src/teachers/utils.py. -/
def extract_sheet_key_from_url (url : String) : Option String :=
  (findSheetKey url.toList).map String.mk

/-- Python exceptions the code under verification raises, catches or wraps. -/
inductive PyErr where
  | valueError (msg : String)
  | typeError (msg : String)
  | runtimeError (msg : String)
  | importError
  | spreadsheetNotFound
  | authenticationError
  | fileNotFound
  | otherError (msg : String)
deriving DecidableEq

/-- Numeric value of an ASCII digit. -/
def digitVal (c : Char) : Nat := c.toNat - 48

/-- Numeric value of a run of ASCII digits (Python int on the captured group). -/
def digitsToNat (ds : List Char) : Nat := ds.foldl (fun n c => 10 * n + digitVal c) 0

/-- The digits-and-point part of a float literal: its mantissa (the digit
runs around an optional point, at least one digit present), the number of
fractional digits, and the unread tail. -/
def parseMantissa (cs : List Char) : Option (Nat × Nat × List Char) :=
  let ip := cs.takeWhile Char.isDigit
  let rest := cs.drop ip.length
  match rest with
  | '.' :: rest2 =>
    let fp := rest2.takeWhile Char.isDigit
    let rest3 := rest2.drop fp.length
    if ip = [] ∧ fp = [] then none
    else some (digitsToNat (ip ++ fp), fp.length, rest3)
  | _ => if ip = [] then none else some (digitsToNat ip, 0, rest)

/-- The exponent-or-end tail of a float literal: an empty tail is exponent
zero, otherwise e or E, an optional sign and a nonempty digit run ending
the string. -/
def parseFloatExpInt : List Char → Option Int
  | [] => some 0
  | c :: cs =>
    if c = 'e' || c = 'E' then
      match cs with
      | '+' :: ds =>
        if ds ≠ [] ∧ ds.all Char.isDigit then some ((digitsToNat ds : Int)) else none
      | '-' :: ds =>
        if ds ≠ [] ∧ ds.all Char.isDigit then some (-(digitsToNat ds : Int)) else none
      | ds =>
        if ds ≠ [] ∧ ds.all Char.isDigit then some ((digitsToNat ds : Int)) else none
    else none

/-- The exact rational value of a decimal literal with the given sign,
mantissa, count of fractional digits and exponent. -/
def decimalValue (neg : Bool) (m scale : Nat) (e : Int) : ℚ :=
  let n : Int := if neg then -(m : Int) else (m : Int)
  if 0 ≤ e then mkRat (n * (10 : Int) ^ e.toNat) (10 ^ scale)
  else mkRat n (10 ^ scale * 10 ^ (-e).toNat)

/-- Models the Python builtin float on a string: optional surrounding
whitespace, an optional sign, then a decimal literal (inf, nan and
underscore digit separators are not modelled; values are exact rationals).
Failure is the ValueError float raises. -/
def pyFloat (s : String) : Except PyErr ℚ :=
  let cs := pyStripList s.toList
  let body :=
    match cs with
    | '+' :: r => (false, r)
    | '-' :: r => (true, r)
    | r => (false, r)
  match parseMantissa body.2 with
  | some (m, scale, rest) =>
    match parseFloatExpInt rest with
    | some e => .ok (decimalValue body.1 m scale e)
    | none => .error (.valueError ("could not convert string to float: " ++ s))
  | none => .error (.valueError ("could not convert string to float: " ++ s))

/-- Models str.replace of every comma by a period. -/
def pyReplaceCommaDot (s : String) : String :=
  String.mk (s.toList.map fun c => if c = ',' then '.' else c)

/-- Models str.rstrip with argument the percent sign: drop every trailing
percent character. -/
def pyRstripPercent (s : String) : String :=
  String.mk ((s.toList.reverse.dropWhile fun c => c = '%').reverse)

/-- The except clause both coercers use, catching ValueError and TypeError
into the absent result; any other exception propagates. -/
def catchValueType {α : Type} (x : Except PyErr (Option α)) : Except PyErr (Option α) :=
  match x with
  | .error (.valueError _) => .ok none
  | .error (.typeError _) => .ok none
  | other => other

/-- Models parse_percentage from src/teachers/utils.py. -/
def parse_percentage (v : PyValue) : Except PyErr (Option ℚ) :=
  match v with
  | .int n => .ok (some (n : ℚ))
  | .float q => .ok (some q)
  | .bool b => .ok (some (if b then 1 else 0))
  | .str s =>
    catchValueType
      (let cleaned := pyStrip (pyRstripPercent (pyStrip (pyReplaceCommaDot s)))
       if cleaned ≠ "" then (pyFloat cleaned).map some else .ok none)
  | _ => .ok none

/-- A value of Python type date or datetime (datetime subclasses date). -/
inductive PyDateLike where
  | d (dd : PyDate)
  | dt (dd : PyDate) (tt : PyTime)
deriving DecidableEq

/-- The Gregorian leap-year rule of the datetime module. -/
def isLeapYear (y : Nat) : Bool := y % 4 = 0 && (y % 100 ≠ 0 || y % 400 = 0)

/-- Days in a month of the proleptic Gregorian calendar. -/
def daysInMonth (y m : Nat) : Nat :=
  if m = 2 then (if isLeapYear y then 29 else 28)
  else if m = 4 ∨ m = 6 ∨ m = 9 ∨ m = 11 then 30
  else 31

/-- Split a character list on every slash. -/
def splitOnSlash : List Char → List (List Char)
  | [] => [[]]
  | c :: cs =>
    if c = '/' then [] :: splitOnSlash cs
    else
      match splitOnSlash cs with
      | g :: gs => (c :: g) :: gs
      | [] => [[c]]

/-- A day or month field of strptime: one or two digits whose value lies in
the given range. -/
def fieldInRange (lo hi : Nat) (ds : List Char) : Option Nat :=
  if (ds.length = 1 ∨ ds.length = 2) ∧ ds.all Char.isDigit then
    let n := digitsToNat ds
    if lo ≤ n ∧ n ≤ hi then some n else none
  else none

/-- Models datetime.strptime with format %d/%m/%y followed by .date(): day
and month are one or two digits within range, the year exactly two digits
mapped to 1969 through 2068, and the day is checked against the month
length; every failure is the ValueError strptime or the date constructor
raises. -/
def pyStrptimeDMY (s : String) : Except PyErr PyDate :=
  match splitOnSlash s.toList with
  | [ds, ms, ys] =>
    match fieldInRange 1 31 ds, fieldInRange 1 12 ms with
    | some d, some m =>
      if ys.length = 2 ∧ ys.all Char.isDigit then
        let yy := digitsToNat ys
        let y := if yy ≤ 68 then 2000 + yy else 1900 + yy
        if d ≤ daysInMonth y m then .ok ⟨y, m, d⟩
        else .error (.valueError "day is out of range for month")
      else .error (.valueError ("time data " ++ s ++ " does not match format"))
    | _, _ => .error (.valueError ("time data " ++ s ++ " does not match format"))
  | _ => .error (.valueError ("time data " ++ s ++ " does not match format"))

/-- Models parse_date from src/teachers/utils.py. -/
def parse_date (v : PyValue) : Except PyErr (Option PyDateLike) :=
  match v with
  | .dateV d => .ok (some (.d d))
  | .datetimeV d t => .ok (some (.dt d t))
  | .str s =>
    let cleaned := pyStrip s
    if cleaned = "" then .ok none
    else catchValueType ((pyStrptimeDMY cleaned).map fun dd => some (.d dd))
  | _ => .ok none

/-- parse_percentage on a raw grid cell (always a string in the fetched
grid); by theorem percent-and-date coercers never raise, so only the
optional value remains. -/
def parsePercentStr (s : String) : Option ℚ :=
  match parse_percentage (.str s) with
  | .ok r => r
  | .error _ => none

/-- parse_date on a raw grid cell; a parsed string is always a plain date. -/
def parseDateStr (s : String) : Option PyDate :=
  match parse_date (.str s) with
  | .ok (some (.d dd)) => some dd
  | _ => none

/-- A PeriodProgress update dict produced by the extractor. -/
structure PPRec where
  grade_level : String
  periodo : Nat
  paralelo : Char
  progress_percentage : ℚ
deriving DecidableEq

/-- A TopicCompletion update dict produced by the extractor. -/
structure TCRec where
  grade_level : String
  periodo : Nat
  paralelo : Char
  tema_number : String
  tema_title : String
  completion_date : PyDate
deriving DecidableEq

/-- The two result lists of extract_worksheet_data. -/
structure ExtractResults where
  period_progress : List PPRec
  topic_completion : List TCRec
deriving DecidableEq

/-- The state the row loop of extract_worksheet_data carries. -/
structure ExtState where
  current_periodo : Nat
  expect_period_progress_next : Bool
deriving DecidableEq

/-- The paralelo letters with their 0-based column indices O, P, Q, R. -/
def paraleloIndices : List (Char × Nat) := [('A', 14), ('B', 15), ('C', 16), ('D', 17)]

/-- A match of the period pattern at the start of s: a nonempty maximal
digit run, one of the ordinal suffix alternatives ER, DO, TO, then the
literal text " PERIODO"; the captured number is the digit run. -/
def periodMatchAt (s : List Char) : Option Nat :=
  let ds := s.takeWhile Char.isDigit
  if ds = [] then none
  else
    match s.drop ds.length with
    | x :: y :: rest =>
      if ((x = 'E' ∧ y = 'R') ∨ (x = 'D' ∧ y = 'O') ∨ (x = 'T' ∧ y = 'O')) ∧
          " PERIODO".toList.isPrefixOf rest then
        some (digitsToNat ds)
      else none
    | _ => none

/-- Models re.search of the period pattern: the leftmost match wins. -/
def periodSearch : List Char → Option Nat
  | [] => none
  | c :: cs =>
    match periodMatchAt (c :: cs) with
    | some n => some n
    | none => periodSearch cs

/-- Column A (index 0) of a row, stripped then uppercased, defaulting to the
empty string for a row too short. -/
def rowCellA (row : List String) : String :=
  if 0 < row.length then pyUpper (pyStrip (row.getD 0 "")) else ""

/-- Column G (index 6) of a row, stripped then uppercased, likewise. -/
def rowCellG (row : List String) : String :=
  if 6 < row.length then pyUpper (pyStrip (row.getD 6 "")) else ""

/-- The period number the header text of a row captures, if any (the search
runs over column A concatenated with column G). -/
def rowPeriodMatch (row : List String) : Option Nat :=
  periodSearch ((rowCellA row ++ rowCellG row).toList)

/-- One iteration of the row loop of extract_worksheet_data: the next state
together with the records this row emits, mirroring the source branch by
branch (period header, expected progress row, topic row, other). -/
def classifyStep (grade_level : String) (st : ExtState) (row : List String) :
    ExtState × List PPRec × List TCRec :=
  match rowPeriodMatch row with
  | some n => (⟨n, true⟩, [], [])
  | none =>
    if st.expect_period_progress_next then
      let pp := paraleloIndices.filterMap fun pi =>
        if pi.2 < row.length then
          match parsePercentStr (row.getD pi.2 "") with
          | some v =>
            if 0 < st.current_periodo then
              some ⟨grade_level, st.current_periodo, pi.1, v⟩
            else none
          | none => none
        else none
      (⟨st.current_periodo, false⟩, pp, [])
    else
      let tema_title_raw := if 4 < row.length then pyStrip (row.getD 4 "") else ""
      if tema_title_raw ≠ "" ∧ 0 < st.current_periodo then
        let tema_number_raw := if 3 < row.length then pyStrip (row.getD 3 "") else ""
        let tc := paraleloIndices.filterMap fun pi =>
          if pi.2 < row.length then
            (parseDateStr (row.getD pi.2 "")).map fun dd =>
              ⟨grade_level, st.current_periodo, pi.1, tema_number_raw, tema_title_raw, dd⟩
          else none
        (⟨st.current_periodo, st.expect_period_progress_next⟩, [], tc)
      else (⟨st.current_periodo, false⟩, [], [])

/-- The row loop from a given state and accumulated results. -/
def extractStepFold (grade_level : String) (init : ExtState × ExtractResults)
    (rows : List (List String)) : ExtState × ExtractResults :=
  rows.foldl (fun acc row =>
    let out := classifyStep grade_level acc.1 row
    (out.1, ⟨acc.2.period_progress ++ out.2.1, acc.2.topic_completion ++ out.2.2⟩)) init

/-- Models the row loop of extract_worksheet_data over the fetched grid,
starting with no period context. -/
def extractRows (grade_level : String) (rows : List (List String)) : ExtractResults :=
  (extractStepFold grade_level (⟨0, false⟩, ⟨[], []⟩) rows).2

/-- Models extract_worksheet_data: grade_level is the worksheet title and
fetch the outcome of the fixed-window grid read (rows of raw cell text); a
failed fetch yields the two empty lists instead of raising. -/
def extract_worksheet_data (grade_level : String)
    (fetch : Except PyErr (List (List String))) : ExtractResults :=
  match fetch with
  | .error _ => ⟨[], []⟩
  | .ok rows => extractRows grade_level rows

/-- The loop state reached after a list of rows (records dropped). -/
def runState (grade_level : String) (st : ExtState) (rows : List (List String)) : ExtState :=
  rows.foldl (fun s row => (classifyStep grade_level s row).1) st

/-- The fold capturing just the most recently seen period-header number
(0 while no header has been seen). -/
def lastCapturedPeriod (rows : List (List String)) : Nat :=
  rows.foldl (fun p row => (rowPeriodMatch row).getD p) 0

/-- The period-progress records row i of the grid emits, given the run up to it. -/
def rowEmitPP (grade_level : String) (rows : List (List String)) (i : Nat) : List PPRec :=
  (classifyStep grade_level (runState grade_level ⟨0, false⟩ (rows.take i)) (rows.getD i [])).2.1

/-- The topic-completion records row i of the grid emits, given the run up to it. -/
def rowEmitTC (grade_level : String) (rows : List (List String)) (i : Nat) : List TCRec :=
  (classifyStep grade_level (runState grade_level ⟨0, false⟩ (rows.take i)) (rows.getD i [])).2.2

/-- One worksheet as the validator sees it: a title and cells addressed by
their A1 reference, each read possibly raising. -/
structure WksData where
  title : String
  cells : String → Except PyErr PyValue

/-- One spreadsheet: its title and its worksheet listing (the listing call
itself can raise, inside the guarded loop). -/
structure SheetData where
  title : String
  worksheets : Except PyErr (List WksData)

/-- The per-worksheet body of find_valid_teacher_worksheets: header check,
name-cell checks, fuzzy comparison; every skip returns the accumulator
unchanged, a fuzzy match appends the worksheet title. -/
def processOneWks (score : String → String → Except PyErr Nat)
    (headerCell expectedHeaderValue teacherNameCell : String)
    (similarityThreshold : Nat) (cleanNameTitle : String)
    (acc : List String) (wks : WksData) : Except PyErr (List String) := do
  let hv ← wks.cells headerCell
  match hv with
  | .str hs =>
    if pyUpper (pyStrip hs) ≠ pyUpper expectedHeaderValue then pure acc
    else do
      let nv ← wks.cells teacherNameCell
      match nv with
      | .str ns =>
        if pyStrip ns = "" then pure acc
        else
          let cleanNameCell := preprocess_name (.str ns)
          if cleanNameTitle = "" ∨ cleanNameCell = "" then pure acc
          else do
            let sc ← score cleanNameCell cleanNameTitle
            if similarityThreshold ≤ sc then pure (acc ++ [wks.title]) else pure acc
      | _ => pure acc
  | _ => pure acc

/-- The worksheet loop of find_valid_teacher_worksheets, accumulating the
valid titles in order. -/
def loopWorksheets (score : String → String → Except PyErr Nat)
    (headerCell expectedHeaderValue teacherNameCell : String)
    (similarityThreshold : Nat) (cleanNameTitle : String) :
    List WksData → List String → Except PyErr (List String)
  | [], acc => .ok acc
  | w :: ws, acc => do
    let acc2 ← processOneWks score headerCell expectedHeaderValue teacherNameCell
      similarityThreshold cleanNameTitle acc w
    loopWorksheets score headerCell expectedHeaderValue teacherNameCell
      similarityThreshold cleanNameTitle ws acc2

/-- The first component of str.strip followed by split on the first
underscore (only that component is used by the validator). -/
def splitFirstUnderscore (s : String) : String :=
  String.mk (s.toList.takeWhile fun c => c ≠ '_')

/-- The cleaned teacher name the validator derives from a spreadsheet
title: strip, take the part before the first underscore, strip again and
normalize. -/
def cleanTitleOf (sh : SheetData) : String :=
  preprocess_name (.str (pyStrip (splitFirstUnderscore (pyStrip sh.title))))

/-- The body of the guarded try block of find_valid_teacher_worksheets:
list the worksheets, then run the accumulating loop. -/
def wksLoopResult (score : String → String → Except PyErr Nat)
    (headerCell expectedHeaderValue teacherNameCell : String)
    (similarityThreshold : Nat) (sh : SheetData) : Except PyErr (List String) := do
  let ws ← sh.worksheets
  loopWorksheets score headerCell expectedHeaderValue teacherNameCell
    similarityThreshold (cleanTitleOf sh) ws []

/-- Models find_valid_teacher_worksheets from src/teachers/utils.py.
openByKey stands for the client acquisition plus open_by_key (both raise
uncaught); score stands for the fuzzy token-set scorer (which raises
ImportError when the library is missing).  The worksheet loop is guarded:
ImportError is re-raised as is, any other exception is wrapped into a
RuntimeError naming the sheet key. -/
def find_valid_teacher_worksheets
    (openByKey : String → Except PyErr SheetData)
    (score : String → String → Except PyErr Nat)
    (sheet_url : String)
    (headerCell expectedHeaderValue teacherNameCell : String)
    (similarityThreshold : Nat) : Except PyErr (List String) :=
  match extract_sheet_key_from_url sheet_url with
  | none => .error (.valueError ("Could not extract valid sheet key from URL: " ++ sheet_url))
  | some sheet_key =>
    match openByKey sheet_key with
    | .error e => .error e
    | .ok sh =>
      match wksLoopResult score headerCell expectedHeaderValue teacherNameCell
          similarityThreshold sh with
      | .ok titles => .ok titles
      | .error .importError => .error .importError
      | .error _ => .error (.runtimeError ("Error processing worksheets in sheet " ++ sheet_key))

-- Decidable equality for Except results, used to settle concrete runs.
deriving instance DecidableEq for Except

/-- Whether a character list holds two adjacent whitespace characters. -/
def hasDoubleWs : List Char → Bool
  | a :: b :: rest => (isPySpace a && isPySpace b) || hasDoubleWs (b :: rest)
  | _ => false

/-- The honorific tokens named by the specification (a subset of the two
title patterns the code removes). -/
def honorificToks : List String :=
  ["lic", "dr", "ing", "sr", "sra", "srta", "licenciado", "doctor", "ingeniero", "maestro"]

/-- The grid of the worked example: sheet row 3 holds the period header in
column A, row 4 the progress percentages in columns O and P, row 5 is
blank, row 6 holds the topic number in D, title in E and a completion date
in O.  Rows are padded to the 16 columns the fetched frame keeps. -/
def c1Grid : List (List String) :=
  [["1ER PERIODO", "", "", "", "", "", "", "", "", "", "", "", "", "", "", ""],
   ["", "", "", "", "", "", "", "", "", "", "", "", "", "", "90%", "85%"],
   ["", "", "", "", "", "", "", "", "", "", "", "", "", "", "", ""],
   ["", "", "", "3", "Fracciones", "", "", "", "", "", "", "", "", "", "6/3/25", ""]]

/-! ## General helper lemmas -/

theorem toList_mk (l : List Char) : (String.mk l).toList = l := rfl

theorem head?_dropWhile (p : Char → Bool) :
    ∀ l : List Char, ∀ c, (l.dropWhile p).head? = some c → p c = false := by
  intro l
  induction l with
  | nil => intro c h; simp at h
  | cons a as ih =>
    intro c h
    by_cases ha : p a
    · rw [List.dropWhile_cons_of_pos ha] at h
      exact ih c h
    · rw [List.dropWhile_cons_of_neg ha] at h
      simp at h
      subst h
      simpa using ha

/-- The right-stripped part of the left-stripped list: dropWhile decomposes
as the stripped core followed by trailing whitespace. -/
theorem dropWhile_eq_strip_append (l : List Char) :
    l.dropWhile isPySpace =
      pyStripList l ++ ((l.dropWhile isPySpace).reverse.takeWhile isPySpace).reverse := by
  conv_lhs => rw [← List.reverse_reverse (l.dropWhile isPySpace),
    ← List.takeWhile_append_dropWhile isPySpace (l.dropWhile isPySpace).reverse]
  rw [List.reverse_append]
  rfl

/-- pyStripList decomposes its argument as spaces, the result, spaces. -/
theorem pyStripList_decomp (l : List Char) :
    ∃ u v, l = u ++ (pyStripList l ++ v) ∧
      u.all isPySpace = true ∧ v.all isPySpace = true := by
  refine ⟨l.takeWhile isPySpace,
    ((l.dropWhile isPySpace).reverse.takeWhile isPySpace).reverse, ?_, ?_, ?_⟩
  · conv_lhs => rw [← List.takeWhile_append_dropWhile isPySpace l,
      dropWhile_eq_strip_append l]
  · simp only [List.all_eq_true]
    exact fun c hc => List.mem_takeWhile_imp hc
  · simp only [List.all_eq_true]
    exact fun c hc => List.mem_takeWhile_imp (List.mem_reverse.mp hc)

/-- The stripped list is a prefix of the left-stripped list. -/
theorem pyStripList_prefix_dropWhile (l : List Char) :
    pyStripList l <+: l.dropWhile isPySpace := by
  have h : ((l.dropWhile isPySpace).reverse.dropWhile isPySpace).reverse <+:
      (l.dropWhile isPySpace).reverse.reverse :=
    List.reverse_prefix.mpr (List.dropWhile_suffix isPySpace)
  rw [List.reverse_reverse] at h
  exact h

theorem pyStripList_head? (l : List Char) (c : Char)
    (h : (pyStripList l).head? = some c) : isPySpace c = false := by
  have hpre := pyStripList_prefix_dropWhile l
  rcases hs : pyStripList l with _ | ⟨a, as⟩
  · rw [hs] at h; exact absurd h (by simp)
  · rw [hs] at h hpre
    have hac : a = c := by simpa using h
    subst hac
    rcases hpre with ⟨t, ht⟩
    have hh : (l.dropWhile isPySpace).head? = some a := by rw [← ht]; rfl
    exact head?_dropWhile isPySpace l a hh

theorem pyStripList_getLast? (l : List Char) (c : Char)
    (h : (pyStripList l).getLast? = some c) : isPySpace c = false := by
  unfold pyStripList at h
  rw [List.getLast?_reverse] at h
  exact head?_dropWhile isPySpace _ c h

/-! ## The value coercers: C6, C9, C10 -/

/-- The only exception pyFloat raises is a ValueError. -/
theorem pyFloat_err (s : String) (e : PyErr) (h : pyFloat s = Except.error e) :
    ∃ m, e = PyErr.valueError m := by
  unfold pyFloat at h
  dsimp only at h
  repeat' split at h
  all_goals cases h
  all_goals exact ⟨_, rfl⟩

/-- pyFloat either succeeds or raises exactly a ValueError. -/
theorem pyFloat_shape (s : String) :
    (∃ q, pyFloat s = Except.ok q) ∨ ∃ m, pyFloat s = Except.error (PyErr.valueError m) := by
  cases h : pyFloat s with
  | ok q => exact Or.inl ⟨q, rfl⟩
  | error e =>
    rcases pyFloat_err s e h with ⟨m, hm⟩
    exact Or.inr ⟨m, by rw [← hm]⟩

/-- The only exception pyStrptimeDMY raises is a ValueError. -/
theorem pyStrptimeDMY_err (s : String) (e : PyErr) (h : pyStrptimeDMY s = Except.error e) :
    ∃ m, e = PyErr.valueError m := by
  unfold pyStrptimeDMY at h
  dsimp only at h
  repeat' split at h
  all_goals cases h
  all_goals exact ⟨_, rfl⟩

/-- pyStrptimeDMY either succeeds or raises exactly a ValueError. -/
theorem pyStrptimeDMY_shape (s : String) :
    (∃ d, pyStrptimeDMY s = Except.ok d) ∨
      ∃ m, pyStrptimeDMY s = Except.error (PyErr.valueError m) := by
  cases h : pyStrptimeDMY s with
  | ok d => exact Or.inl ⟨d, rfl⟩
  | error e =>
    rcases pyStrptimeDMY_err s e h with ⟨m, hm⟩
    exact Or.inr ⟨m, by rw [← hm]⟩

/-- C6.  For every input value of any type, parse_percentage and parse_date
never raise: every failure path returns the absent marker None, never an
exception. -/
theorem claim_C6 (v : PyValue) :
    (∃ r, parse_percentage v = Except.ok r) ∧ ∃ r, parse_date v = Except.ok r := by
  constructor
  · cases v with
    | str s =>
      by_cases h : pyStrip (pyRstripPercent (pyStrip (pyReplaceCommaDot s))) = ""
      · exact ⟨none, by simp [parse_percentage, h, catchValueType]⟩
      · rcases pyFloat_shape (pyStrip (pyRstripPercent (pyStrip (pyReplaceCommaDot s)))) with
          ⟨q, hq⟩ | ⟨m, hm⟩
        · exact ⟨some q, by simp [parse_percentage, h, hq, catchValueType, Except.map]⟩
        · exact ⟨none, by simp [parse_percentage, h, hm, catchValueType, Except.map]⟩
    | int n => exact ⟨_, rfl⟩
    | float q => exact ⟨_, rfl⟩
    | bool b => exact ⟨_, rfl⟩
    | pynone => exact ⟨_, rfl⟩
    | dateV d => exact ⟨_, rfl⟩
    | datetimeV d t => exact ⟨_, rfl⟩
  · cases v with
    | str s =>
      by_cases h : pyStrip s = ""
      · exact ⟨none, by simp [parse_date, h]⟩
      · rcases pyStrptimeDMY_shape (pyStrip s) with ⟨d, hd⟩ | ⟨m, hm⟩
        · exact ⟨some (.d d), by simp [parse_date, h, hd, catchValueType, Except.map]⟩
        · exact ⟨none, by simp [parse_date, h, hm, catchValueType, Except.map]⟩
    | int n => exact ⟨_, rfl⟩
    | float q => exact ⟨_, rfl⟩
    | bool b => exact ⟨_, rfl⟩
    | pynone => exact ⟨_, rfl⟩
    | dateV d => exact ⟨_, rfl⟩
    | datetimeV d t => exact ⟨_, rfl⟩

/-- C9.  In parse_percentage's cleaning, every comma is replaced by a dot
and every trailing percent sign is stripped: "1,234" parses to 1.234,
"50%%" to 50.0, and "1,2,3" (two commas) becomes "1.2.3" and is absent. -/
theorem claim_C9 :
    (∀ s : String, (',') ∉ (pyReplaceCommaDot s).toList) ∧
    (∀ s : String, (pyRstripPercent s).toList.getLast? ≠ some ('%')) ∧
    parse_percentage (.str "1,234") = .ok (some (1.234 : ℚ)) ∧
    parse_percentage (.str "50%%") = .ok (some 50) ∧
    parse_percentage (.str "1,2,3") = .ok none := by
  refine ⟨?_, ?_, ?_, by decide, by decide⟩
  · intro s hmem
    rw [pyReplaceCommaDot, toList_mk] at hmem
    rcases List.mem_map.1 hmem with ⟨c, _, hc⟩
    by_cases h : c = ',' <;> simp [h] at hc
  · intro s h
    rw [pyRstripPercent, toList_mk, List.getLast?_reverse] at h
    have := head?_dropWhile (fun c => c = '%') (s.toList.reverse) '%' h
    simp at this
  · have h1 : (1.234 : ℚ) = mkRat 1234 1000 := by
      rw [Rat.mkRat_eq_div]; norm_num
    rw [h1]; decide

/-- C10.  parse_date returns any date-typed value unchanged; in particular a
datetime comes back as the very same datetime, time component included, not
collapsed to a plain calendar date. -/
theorem claim_C10 :
    (∀ (d : PyDate) (t : PyTime),
      parse_date (.datetimeV d t) = .ok (some (.dt d t))) ∧
    ∀ d : PyDate, parse_date (.dateV d) = .ok (some (.d d)) :=
  ⟨fun _ _ => rfl, fun _ => rfl⟩

/-! ## The grid extractor: C1, C5 -/

/-- C5.  A failed fixed-window grid fetch yields the empty result lists and
never propagates the failure. -/
theorem claim_C5 (grade_level : String) (e : PyErr) :
    extract_worksheet_data grade_level (.error e) =
      { period_progress := [], topic_completion := [] } := rfl

/-- C1.  On the worked example grid (period header "1ER PERIODO", a progress
row with 90 and 85 percent in columns O and P, a blank row, and a topic row
"Fracciones" number 3 dated 6/3/25 in column O), extraction emits exactly
the two period-progress records for paralelos A and B, in that order, and
exactly the one topic-completion record dated 2025-03-06. -/
theorem claim_C1 (gl : String) :
    extract_worksheet_data gl (.ok c1Grid) =
      { period_progress :=
          [{ grade_level := gl, periodo := 1, paralelo := 'A', progress_percentage := 90 },
           { grade_level := gl, periodo := 1, paralelo := 'B', progress_percentage := 85 }],
        topic_completion :=
          [{ grade_level := gl, periodo := 1, paralelo := 'A', tema_number := "3",
             tema_title := "Fracciones",
             completion_date := { year := 2025, month := 3, day := 6 } }] } := rfl

/-! ## The worksheet validator: C4 -/

/-- C4.  find_valid_teacher_worksheets raises a ValueError whenever the
sheet key cannot be extracted from the url, for every client (hence before
any spreadsheet access); and an error raised while iterating the worksheets
is wrapped into a RuntimeError carrying the spreadsheet key, except that an
ImportError propagates unwrapped. -/
theorem claim_C4 :
    (∀ (openByKey : String → Except PyErr SheetData)
       (score : String → String → Except PyErr Nat)
       (url hc eh nc : String) (th : Nat),
       extract_sheet_key_from_url url = none →
       find_valid_teacher_worksheets openByKey score url hc eh nc th =
         .error (.valueError ("Could not extract valid sheet key from URL: " ++ url))) ∧
    (∀ (openByKey : String → Except PyErr SheetData)
       (score : String → String → Except PyErr Nat)
       (url hc eh nc : String) (th : Nat) (key : String) (sh : SheetData) (e : PyErr),
       extract_sheet_key_from_url url = some key →
       openByKey key = .ok sh →
       wksLoopResult score hc eh nc th sh = .error e →
       (e = .importError →
          find_valid_teacher_worksheets openByKey score url hc eh nc th =
            .error .importError) ∧
       (e ≠ .importError →
          find_valid_teacher_worksheets openByKey score url hc eh nc th =
            .error (.runtimeError ("Error processing worksheets in sheet " ++ key)))) := by
  constructor
  · intro openByKey score url hc eh nc th h
    unfold find_valid_teacher_worksheets
    rw [h]
  · intro openByKey score url hc eh nc th key sh e hkey hopen hloop
    constructor
    · intro he
      subst he
      unfold find_valid_teacher_worksheets
      rw [hkey]
      dsimp only
      rw [hopen]
      dsimp only
      rw [hloop]
    · intro hne
      unfold find_valid_teacher_worksheets
      rw [hkey]
      dsimp only
      rw [hopen]
      dsimp only
      rw [hloop]
      cases e with
      | importError => exact absurd rfl hne
      | valueError m => rfl
      | typeError m => rfl
      | runtimeError m => rfl
      | spreadsheetNotFound => rfl
      | authenticationError => rfl
      | fileNotFound => rfl
      | otherError m => rfl

/-- Witness for C4: a url without a key fails with the ValueError for every
client; a worksheet listing that raises a generic error is wrapped into the
RuntimeError carrying the key K1; a listing that raises ImportError
propagates it unwrapped. -/
theorem claim_C4_witness :
    find_valid_teacher_worksheets (fun _ => .ok ⟨"T", .error (.otherError "boom")⟩)
        (fun _ _ => .ok 0) "https://example.com" "E3" "DOCENTE" "E4" 80 =
      .error (.valueError ("Could not extract valid sheet key from URL: " ++
        "https://example.com")) ∧
    find_valid_teacher_worksheets (fun _ => .ok ⟨"T", .error (.otherError "boom")⟩)
        (fun _ _ => .ok 0) "https://docs.google.com/spreadsheets/d/K1/e" "E3" "DOCENTE" "E4" 80 =
      .error (.runtimeError ("Error processing worksheets in sheet " ++ "K1")) ∧
    find_valid_teacher_worksheets (fun _ => .ok ⟨"T", .error .importError⟩)
        (fun _ _ => .ok 0) "https://docs.google.com/spreadsheets/d/K1/e" "E3" "DOCENTE" "E4" 80 =
      .error .importError := by
  refine ⟨claim_C4.1 _ _ _ _ _ _ _ (by decide), ?_, ?_⟩
  · exact (claim_C4.2 (fun _ => .ok ⟨"T", .error (.otherError "boom")⟩) (fun _ _ => .ok 0)
      "https://docs.google.com/spreadsheets/d/K1/e" "E3" "DOCENTE" "E4" 80 "K1"
      ⟨"T", .error (.otherError "boom")⟩ (.otherError "boom")
      (by decide) rfl rfl).2 (by decide)
  · exact (claim_C4.2 (fun _ => .ok ⟨"T", .error .importError⟩) (fun _ _ => .ok 0)
      "https://docs.google.com/spreadsheets/d/K1/e" "E3" "DOCENTE" "E4" 80 "K1"
      ⟨"T", .error .importError⟩ .importError
      (by decide) rfl rfl).1 rfl

/-! ## Row-classification invariants: C2, C3 -/

/-- The period carried out of one step is the captured header number when
the row is a header, and the incoming period otherwise. -/
theorem classifyStep_periodo (gl : String) (st : ExtState) (row : List String) :
    ((classifyStep gl st row).1).current_periodo =
      (rowPeriodMatch row).getD st.current_periodo := by
  unfold classifyStep
  cases h : rowPeriodMatch row with
  | some n => rfl
  | none =>
    dsimp only
    repeat' split
    all_goals rfl

/-- The progress-expected flag carried out of one step records exactly
whether the row just processed was a period header. -/
theorem classifyStep_expect (gl : String) (st : ExtState) (row : List String) :
    ((classifyStep gl st row).1).expect_period_progress_next =
      (rowPeriodMatch row).isSome := by
  unfold classifyStep
  cases h : rowPeriodMatch row with
  | some n => rfl
  | none =>
    dsimp only
    split
    · rfl
    · rename_i hq
      repeat' split
      all_goals first | rfl | simpa using hq

/-- Every period-progress record one step emits carries the incoming
period, which is positive. -/
theorem classifyStep_pp_mem (gl : String) (st : ExtState) (row : List String)
    (r : PPRec) (h : r ∈ (classifyStep gl st row).2.1) :
    r.periodo = st.current_periodo ∧ 0 < st.current_periodo := by
  unfold classifyStep at h
  cases hp : rowPeriodMatch row with
  | some n => rw [hp] at h; simp at h
  | none =>
    rw [hp] at h
    try dsimp only at h
    split at h
    · try dsimp only at h
      rw [List.mem_filterMap] at h
      rcases h with ⟨pi, _, hf⟩
      split at hf
      · split at hf
        · split at hf
          · rename_i hpos
            cases hf
            exact ⟨rfl, hpos⟩
          · cases hf
        · cases hf
      · cases hf
    · repeat' split at h
      all_goals simp at h

/-- Every topic-completion record one step emits carries the incoming
period, which is positive. -/
theorem classifyStep_tc_mem (gl : String) (st : ExtState) (row : List String)
    (r : TCRec) (h : r ∈ (classifyStep gl st row).2.2) :
    r.periodo = st.current_periodo ∧ 0 < st.current_periodo := by
  unfold classifyStep at h
  cases hp : rowPeriodMatch row with
  | some n => rw [hp] at h; simp at h
  | none =>
    rw [hp] at h
    try dsimp only at h
    split at h
    · simp at h
    · by_cases hcond :
        (if 4 < row.length then pyStrip (row.getD 4 "") else "") ≠ "" ∧
          0 < st.current_periodo
      · rw [if_pos hcond] at h
        try dsimp only at h
        rw [List.mem_filterMap] at h
        rcases h with ⟨pi, _, hf⟩
        split at hf
        · rw [Option.map_eq_some'] at hf
          rcases hf with ⟨dd, _, hr⟩
          rw [← hr]
          exact ⟨rfl, hcond.2⟩
        · cases hf
      · rw [if_neg hcond] at h
        simp at h

/-- The recorded period of the run equals the fold of captured header
numbers over the processed rows. -/
theorem runState_periodo (gl : String) (rows : List (List String)) : ∀ st : ExtState,
    (runState gl st rows).current_periodo =
      rows.foldl (fun p row => (rowPeriodMatch row).getD p) st.current_periodo := by
  induction rows with
  | nil => intro st; rfl
  | cons row rest ih =>
    intro st
    show (runState gl (classifyStep gl st row).1 rest).current_periodo = _
    rw [ih, classifyStep_periodo, List.foldl_cons]

/-- Results of the fold with an accumulator split off. -/
theorem extractStepFold_pp_append (gl : String) (rows : List (List String)) :
    ∀ (st : ExtState) (acc : ExtractResults),
    (extractStepFold gl (st, acc) rows).2.period_progress =
      acc.period_progress ++
        (extractStepFold gl (st, ⟨[], []⟩) rows).2.period_progress := by
  induction rows with
  | nil => intro st acc; simp [extractStepFold]
  | cons row rest ih =>
    intro st acc
    show (extractStepFold gl ((classifyStep gl st row).1,
        ⟨acc.period_progress ++ (classifyStep gl st row).2.1,
         acc.topic_completion ++ (classifyStep gl st row).2.2⟩) rest).2.period_progress = _
    rw [ih]
    conv_rhs =>
      rw [show (extractStepFold gl (st, (⟨[], []⟩ : ExtractResults)) (row :: rest)) =
        extractStepFold gl ((classifyStep gl st row).1,
          ⟨[] ++ (classifyStep gl st row).2.1, [] ++ (classifyStep gl st row).2.2⟩) rest from rfl]
      rw [ih]
    simp

theorem extractStepFold_tc_append (gl : String) (rows : List (List String)) :
    ∀ (st : ExtState) (acc : ExtractResults),
    (extractStepFold gl (st, acc) rows).2.topic_completion =
      acc.topic_completion ++
        (extractStepFold gl (st, ⟨[], []⟩) rows).2.topic_completion := by
  induction rows with
  | nil => intro st acc; simp [extractStepFold]
  | cons row rest ih =>
    intro st acc
    show (extractStepFold gl ((classifyStep gl st row).1,
        ⟨acc.period_progress ++ (classifyStep gl st row).2.1,
         acc.topic_completion ++ (classifyStep gl st row).2.2⟩) rest).2.topic_completion = _
    rw [ih]
    conv_rhs =>
      rw [show (extractStepFold gl (st, (⟨[], []⟩ : ExtractResults)) (row :: rest)) =
        extractStepFold gl ((classifyStep gl st row).1,
          ⟨[] ++ (classifyStep gl st row).2.1, [] ++ (classifyStep gl st row).2.2⟩) rest from rfl]
      rw [ih]
    simp

/-- Membership in the folded period-progress results is membership in some
single row's emissions, the state being the run up to that row. -/
theorem mem_extractStepFold_pp (gl : String) (rows : List (List String)) :
    ∀ (st : ExtState) (r : PPRec),
    r ∈ (extractStepFold gl (st, ⟨[], []⟩) rows).2.period_progress ↔
      ∃ i, i < rows.length ∧
        r ∈ (classifyStep gl (runState gl st (rows.take i)) (rows.getD i [])).2.1 := by
  induction rows with
  | nil => intro st r; simp [extractStepFold]
  | cons row rest ih =>
    intro st r
    have hstep : (extractStepFold gl (st, (⟨[], []⟩ : ExtractResults)) (row :: rest)) =
        extractStepFold gl ((classifyStep gl st row).1,
          ⟨[] ++ (classifyStep gl st row).2.1, [] ++ (classifyStep gl st row).2.2⟩) rest := rfl
    rw [hstep, extractStepFold_pp_append, List.nil_append, List.mem_append, ih]
    constructor
    · rintro (hr | ⟨i, hi, hr⟩)
      · exact ⟨0, by simp, by simpa using hr⟩
      · exact ⟨i + 1, by simpa using hi, by simpa using hr⟩
    · rintro ⟨i, hi, hr⟩
      cases i with
      | zero => exact Or.inl (by simpa using hr)
      | succ j =>
        exact Or.inr ⟨j, by simpa using hi, by simpa using hr⟩

theorem mem_extractStepFold_tc (gl : String) (rows : List (List String)) :
    ∀ (st : ExtState) (r : TCRec),
    r ∈ (extractStepFold gl (st, ⟨[], []⟩) rows).2.topic_completion ↔
      ∃ i, i < rows.length ∧
        r ∈ (classifyStep gl (runState gl st (rows.take i)) (rows.getD i [])).2.2 := by
  induction rows with
  | nil => intro st r; simp [extractStepFold]
  | cons row rest ih =>
    intro st r
    have hstep : (extractStepFold gl (st, (⟨[], []⟩ : ExtractResults)) (row :: rest)) =
        extractStepFold gl ((classifyStep gl st row).1,
          ⟨[] ++ (classifyStep gl st row).2.1, [] ++ (classifyStep gl st row).2.2⟩) rest := rfl
    rw [hstep, extractStepFold_tc_append, List.nil_append, List.mem_append, ih]
    constructor
    · rintro (hr | ⟨i, hi, hr⟩)
      · exact ⟨0, by simp, by simpa using hr⟩
      · exact ⟨i + 1, by simpa using hi, by simpa using hr⟩
    · rintro ⟨i, hi, hr⟩
      cases i with
      | zero => exact Or.inl (by simpa using hr)
      | succ j =>
        exact Or.inr ⟨j, by simpa using hi, by simpa using hr⟩

/-- C2.  Every record the extractor emits has a strictly positive periodo
equal to the number captured from the most recent period-header row above
the emitting row, and no record is emitted while the carried period is 0. -/
theorem claim_C2 (gl : String) (rows : List (List String)) :
    (∀ r ∈ (extractRows gl rows).period_progress,
       0 < r.periodo ∧ ∃ i, i < rows.length ∧ r ∈ rowEmitPP gl rows i ∧
         r.periodo = lastCapturedPeriod (rows.take i)) ∧
    ∀ r ∈ (extractRows gl rows).topic_completion,
       0 < r.periodo ∧ ∃ i, i < rows.length ∧ r ∈ rowEmitTC gl rows i ∧
         r.periodo = lastCapturedPeriod (rows.take i) := by
  constructor
  · intro r hr
    rw [extractRows, mem_extractStepFold_pp] at hr
    rcases hr with ⟨i, hi, hr⟩
    have hmem := classifyStep_pp_mem gl _ _ r hr
    have hper : (runState gl ⟨0, false⟩ (rows.take i)).current_periodo =
        lastCapturedPeriod (rows.take i) := runState_periodo gl (rows.take i) ⟨0, false⟩
    refine ⟨?_, i, hi, hr, ?_⟩
    · rw [hmem.1, hper]; exact hper ▸ hmem.2
    · rw [hmem.1, hper]
  · intro r hr
    rw [extractRows, mem_extractStepFold_tc] at hr
    rcases hr with ⟨i, hi, hr⟩
    have hmem := classifyStep_tc_mem gl _ _ r hr
    have hper : (runState gl ⟨0, false⟩ (rows.take i)).current_periodo =
        lastCapturedPeriod (rows.take i) := runState_periodo gl (rows.take i) ⟨0, false⟩
    refine ⟨?_, i, hi, hr, ?_⟩
    · rw [hmem.1, hper]; exact hper ▸ hmem.2
    · rw [hmem.1, hper]

/-- Witness for C2 at the worked example grid: the first emitted progress
record carries periodo 1, emitted at some row below the header that set 1. -/
theorem claim_C2_witness :
    0 < (⟨"g", 1, 'A', (90 : ℚ)⟩ : PPRec).periodo ∧
      ∃ i, i < c1Grid.length ∧ (⟨"g", 1, 'A', (90 : ℚ)⟩ : PPRec) ∈ rowEmitPP "g" c1Grid i ∧
        (⟨"g", 1, 'A', (90 : ℚ)⟩ : PPRec).periodo = lastCapturedPeriod (c1Grid.take i) :=
  (claim_C2 "g" c1Grid).1 ⟨"g", 1, 'A', (90 : ℚ)⟩ (by decide)

/-- C3.  Rows are mutually exclusive across archetypes, evaluated in the
priority order header, progress, topic, other: a period-header row emits no
records at all; a row processed with the progress flag set (which happens
exactly when the immediately preceding row was a header) never emits
topic-completion records even if its column E is non-empty; a row processed
without the flag never emits period-progress records; and the flag carried
out of a row is set exactly when that row is a period header. -/
theorem claim_C3 (gl : String) (st : ExtState) (row : List String) :
    ((rowPeriodMatch row).isSome = true → (classifyStep gl st row).2 = ([], [])) ∧
    ((rowPeriodMatch row).isSome = false → st.expect_period_progress_next = true →
       (classifyStep gl st row).2.2 = []) ∧
    ((rowPeriodMatch row).isSome = false → st.expect_period_progress_next = false →
       (classifyStep gl st row).2.1 = []) ∧
    ((classifyStep gl st row).1.expect_period_progress_next = (rowPeriodMatch row).isSome) := by
  refine ⟨?_, ?_, ?_, classifyStep_expect gl st row⟩
  · intro hh
    unfold classifyStep
    cases hp : rowPeriodMatch row with
    | some n => rfl
    | none => rw [hp] at hh; simp at hh
  · intro hh hst
    unfold classifyStep
    cases hp : rowPeriodMatch row with
    | some n => rw [hp] at hh
    | none =>
      dsimp only
      rw [hst]
      rfl
  · intro hh hst
    unfold classifyStep
    cases hp : rowPeriodMatch row with
    | some n => rw [hp] at hh
    | none =>
      dsimp only
      rw [hst]
      try dsimp only
      repeat' split
      all_goals first | rfl | simp_all

/-- Witness for C3 at concrete rows: a header row emits nothing; a
progress-flagged row with a topic title in column E emits no topic records;
an unflagged topic row emits no progress records; and the flag is set
exactly by the header row. -/
theorem claim_C3_witness :
    ((rowPeriodMatch ["1ER PERIODO"]).isSome = true →
       (classifyStep "g" ⟨1, false⟩ ["1ER PERIODO"]).2 = ([], [])) ∧
    ((rowPeriodMatch ["", "", "", "3", "Fracciones"]).isSome = false →
       (⟨1, true⟩ : ExtState).expect_period_progress_next = true →
       (classifyStep "g" ⟨1, true⟩ ["", "", "", "3", "Fracciones"]).2.2 = []) ∧
    ((rowPeriodMatch ["", "", "", "3", "Fracciones"]).isSome = false →
       (⟨1, false⟩ : ExtState).expect_period_progress_next = false →
       (classifyStep "g" ⟨1, false⟩ ["", "", "", "3", "Fracciones"]).2.1 = []) ∧
    ((classifyStep "g" ⟨1, false⟩ ["1ER PERIODO"]).1.expect_period_progress_next =
       (rowPeriodMatch ["1ER PERIODO"]).isSome) :=
  ⟨(claim_C3 "g" ⟨1, false⟩ ["1ER PERIODO"]).1,
   (claim_C3 "g" ⟨1, true⟩ ["", "", "", "3", "Fracciones"]).2.1,
   (claim_C3 "g" ⟨1, false⟩ ["", "", "", "3", "Fracciones"]).2.2.1,
   (claim_C3 "g" ⟨1, false⟩ ["1ER PERIODO"]).2.2.2⟩

/-! ## Word structure of strings: toolkit for C7 and C8 -/

theorem isPySpace_not_word {c : Char} (h : isPySpace c = true) : isWordChar c = false := by
  simp only [isPySpace, Bool.or_eq_true, decide_eq_true_eq] at h
  rcases h with ((((h | h) | h) | h) | h) | h <;> subst h <;> decide

theorem isWordChar_not_space {c : Char} (h : isWordChar c = true) : isPySpace c = false := by
  cases hs : isPySpace c with
  | false => rfl
  | true => rw [isPySpace_not_word hs] at h; cases h

theorem space_not_word : isWordChar ' ' = false := by decide

/-- A leading non-word character contributes no word. -/
theorem wordsOf_cons_nonword {c : Char} (h : isWordChar c = false) (cs : List Char) :
    wordsOf (c :: cs) = wordsOf cs := by
  simp only [wordsOf, wordsAux, h]
  rfl

/-- Reading a run of word characters extends the accumulator. -/
theorem wordsAux_word_run (u : List Char) (hu : u.all isWordChar = true) :
    ∀ (t acc : List Char), wordsAux (u ++ t) acc = wordsAux t (acc ++ u) := by
  induction u with
  | nil => intro t acc; simp
  | cons a u ih =>
    intro t acc
    simp only [List.all_cons, Bool.and_eq_true] at hu
    simp only [List.cons_append, wordsAux, hu.1, if_true, List.append_eq]
    rw [ih hu.2]
    simp

/-- A nonempty accumulator is flushed at the end of the string or at a
non-word character. -/
theorem wordsAux_flush (t acc : List Char) (hacc : acc ≠ [])
    (ht : t = [] ∨ ∃ c cs, t = c :: cs ∧ isWordChar c = false) :
    wordsAux t acc = acc :: wordsAux t [] := by
  rcases ht with rfl | ⟨c, cs, rfl, hc⟩
  · simp [wordsAux, hacc]
  · simp [wordsAux, hc, hacc]

/-- The words of a leading word run followed by a boundary. -/
theorem wordsOf_append_run (u t : List Char) (hu : u.all isWordChar = true)
    (hne : u ≠ []) (ht : t = [] ∨ ∃ c cs, t = c :: cs ∧ isWordChar c = false) :
    wordsOf (u ++ t) = u :: wordsOf t := by
  rw [wordsOf, wordsAux_word_run u hu t [], List.nil_append,
    wordsAux_flush t u hne ht]
  rfl

/-- A string of whitespace holds no word. -/
theorem wordsAux_spaces (u : List Char) (hu : u.all isPySpace = true) :
    ∀ acc, wordsAux u acc = if acc = [] then [] else [acc] := by
  induction u with
  | nil => intro acc; rfl
  | cons c cs ih =>
    intro acc
    simp only [List.all_cons, Bool.and_eq_true] at hu
    rw [show wordsAux (c :: cs) acc =
        (if acc = [] then wordsAux cs [] else acc :: wordsAux cs []) from by
      simp [wordsAux, isPySpace_not_word hu.1]]
    rw [ih hu.2 []]
    by_cases hacc : acc = [] <;> simp [hacc]

/-- Trailing whitespace contributes no word. -/
theorem wordsOf_append_spaces (t u : List Char) (hu : u.all isPySpace = true) :
    wordsOf (t ++ u) = wordsOf t := by
  suffices h : ∀ acc, wordsAux (t ++ u) acc = wordsAux t acc from h []
  induction t with
  | nil =>
    intro acc
    rw [List.nil_append, wordsAux_spaces u hu]
    cases acc <;> rfl
  | cons c cs ih =>
    intro acc
    by_cases hc : isWordChar c = true
    · simp only [List.cons_append, wordsAux, hc, if_true]
      exact ih _
    · rw [Bool.not_eq_true] at hc
      by_cases hacc : acc = []
      · simp only [List.cons_append, wordsAux, hc, hacc]
        simpa using ih []
      · simp only [List.cons_append, wordsAux, hc, hacc, List.append_eq,
          Bool.false_eq_true, if_false]
        rw [ih []]

/-- Leading whitespace contributes no word. -/
theorem wordsOf_leading_spaces (u t : List Char) (hu : u.all isPySpace = true) :
    wordsOf (u ++ t) = wordsOf t := by
  induction u with
  | nil => rfl
  | cons c cs ih =>
    simp only [List.all_cons, Bool.and_eq_true] at hu
    rw [List.cons_append, wordsOf_cons_nonword (isPySpace_not_word hu.1), ih hu.2]

/-- Stripping surrounding whitespace keeps the words. -/
theorem wordsOf_strip (l : List Char) : wordsOf (pyStripList l) = wordsOf l := by
  rcases pyStripList_decomp l with ⟨u, v, hl, hu, hv⟩
  conv_rhs => rw [hl]
  rw [wordsOf_leading_spaces u _ hu, wordsOf_append_spaces _ v hv]

/-! ## Whitespace collapsing lemmas -/

/-- Word characters pass through the collapse unchanged, leaving the flag
cleared. -/
theorem collapseWsAux_word_run (u : List Char) (hu : u.all isWordChar = true)
    (hne : u ≠ []) : ∀ (b : Bool) (t : List Char),
    collapseWsAux b (u ++ t) = u ++ collapseWsAux false t := by
  induction u with
  | nil => exact absurd rfl hne
  | cons a u ih =>
    intro b t
    simp only [List.all_cons, Bool.and_eq_true] at hu
    simp only [List.cons_append, collapseWsAux, isWordChar_not_space hu.1,
      Bool.false_eq_true, if_false, List.append_eq]
    rcases hu2 : u with _ | ⟨a2, u2⟩
    · rfl
    · rw [← hu2, ih hu.2 (by simp [hu2]) false t]

/-- With the flag cleared, the head of the collapsed text is never
whitespace beyond a space written for a whitespace head, and a space is
written exactly then; in particular the head is a space only if it is the
single space character. -/
theorem collapseWsAux_true_head (l : List Char) :
    ∀ d ds, collapseWsAux true l = d :: ds → isPySpace d = false := by
  induction l with
  | nil => intro d ds h; cases h
  | cons c cs ih =>
    intro d ds h
    by_cases hc : isPySpace c = true
    · simp only [collapseWsAux, hc, if_true] at h
      exact ih d ds h
    · rw [Bool.not_eq_true] at hc
      simp only [collapseWsAux, hc, Bool.false_eq_true, if_false] at h
      cases h
      exact hc

/-- Every whitespace character the collapse emits is the single space. -/
theorem collapseWsAux_space_char (l : List Char) :
    ∀ (b : Bool) (c : Char), c ∈ collapseWsAux b l → isPySpace c = true → c = ' ' := by
  induction l with
  | nil => intro b c h; simp [collapseWsAux] at h
  | cons a as ih =>
    intro b c h hc
    by_cases ha : isPySpace a = true
    · simp only [collapseWsAux, ha, if_true] at h
      cases b with
      | true => exact ih true c h hc
      | false =>
        simp only [Bool.false_eq_true, if_false, List.mem_cons] at h
        rcases h with rfl | h
        · rfl
        · exact ih true c h hc
    · rw [Bool.not_eq_true] at ha
      simp only [collapseWsAux, ha, Bool.false_eq_true, if_false, List.mem_cons] at h
      rcases h with rfl | h
      · rw [hc] at ha; cases ha
      · exact ih false c h hc

/-- Every character the collapse emits is a space or a character of the
input. -/
theorem collapseWsAux_chars (l : List Char) :
    ∀ (b : Bool) (c : Char), c ∈ collapseWsAux b l → c = ' ' ∨ c ∈ l := by
  induction l with
  | nil => intro b c h; simp [collapseWsAux] at h
  | cons a as ih =>
    intro b c h
    by_cases ha : isPySpace a = true
    · simp only [collapseWsAux, ha, if_true] at h
      cases b with
      | true =>
        rcases ih true c h with h' | h'
        · exact Or.inl h'
        · exact Or.inr (List.mem_cons_of_mem a h')
      | false =>
        simp only [Bool.false_eq_true, if_false, List.mem_cons] at h
        rcases h with rfl | h
        · exact Or.inl rfl
        · rcases ih true c h with h' | h'
          · exact Or.inl h'
          · exact Or.inr (List.mem_cons_of_mem a h')
    · rw [Bool.not_eq_true] at ha
      simp only [collapseWsAux, ha, Bool.false_eq_true, if_false, List.mem_cons] at h
      rcases h with rfl | h
      · exact Or.inr (List.mem_cons_self c as)
      · rcases ih false c h with h' | h'
        · exact Or.inl h'
        · exact Or.inr (List.mem_cons_of_mem a h')

/-- Collapsing whitespace never creates or destroys words. -/
theorem wordsOf_collapseWsAux :
    ∀ (n : Nat) (l : List Char), l.length ≤ n → ∀ b : Bool,
      wordsOf (collapseWsAux b l) = wordsOf l := by
  intro n
  induction n with
  | zero =>
    intro l hl b
    rw [List.length_eq_zero.mp (Nat.le_zero.mp hl)]
    rfl
  | succ n ih =>
    intro l hl b
    rcases l with _ | ⟨c, cs⟩
    · rfl
    · by_cases hc : isPySpace c = true
      · have hw := isPySpace_not_word hc
        have hstep : wordsOf (collapseWsAux b (c :: cs)) =
            wordsOf (collapseWsAux true cs) := by
          cases b with
          | true => simp [collapseWsAux, hc]
          | false =>
            have hx : collapseWsAux false (c :: cs) = ' ' :: collapseWsAux true cs := by
              simp [collapseWsAux, hc]
            rw [hx, wordsOf_cons_nonword space_not_word]
        rw [hstep, ih cs (by simpa using Nat.succ_le_succ_iff.mp hl) true,
          wordsOf_cons_nonword hw]
      · rw [Bool.not_eq_true] at hc
        by_cases hword : isWordChar c = true
        · set u := (c :: cs).takeWhile isWordChar with hudef
          set rest := (c :: cs).dropWhile isWordChar with hrdef
          have hsplit : c :: cs = u ++ rest := by
            rw [hudef, hrdef, List.takeWhile_append_dropWhile]
          have huall : u.all isWordChar = true := by
            simp only [List.all_eq_true]
            exact fun x hx => List.mem_takeWhile_imp hx
          have hune : u ≠ [] := by
            rw [hudef]
            simp [List.takeWhile, hword]
          have hresthead : rest = [] ∨ ∃ d ds, rest = d :: ds ∧ isWordChar d = false := by
            rcases hr : rest with _ | ⟨d, ds⟩
            · exact Or.inl rfl
            · refine Or.inr ⟨d, ds, rfl, ?_⟩
              have : rest.head? = some d := by rw [hr]; rfl
              exact head?_dropWhile isWordChar (c :: cs) d (by rw [← hrdef]; exact this)
          have hrestlen : rest.length ≤ n := by
            have h1 : rest.length < (c :: cs).length := by
              rw [hsplit, List.length_append]
              have : 0 < u.length := List.length_pos.mpr hune
              omega
            omega
          have hcollapserest : collapseWsAux false rest = [] ∨
              ∃ d ds, collapseWsAux false rest = d :: ds ∧ isWordChar d = false := by
            rcases hr : rest with _ | ⟨d, ds⟩
            · exact Or.inl rfl
            · rcases hresthead with h0 | ⟨d', ds', hd', hw'⟩
              · rw [h0] at hr; cases hr
              · rw [hr] at hd'
                obtain ⟨rfl, rfl⟩ : d = d' ∧ ds = ds' := by
                  constructor <;> [exact (List.cons.injEq _ _ _ _ ▸ hd').1;
                    exact (List.cons.injEq _ _ _ _ ▸ hd').2]
                by_cases hds : isPySpace d = true
                · refine Or.inr ⟨' ', collapseWsAux true ds, ?_, space_not_word⟩
                  simp [collapseWsAux, hds]
                · rw [Bool.not_eq_true] at hds
                  refine Or.inr ⟨d, collapseWsAux false ds, ?_, hw'⟩
                  simp [collapseWsAux, hds]
          rw [hsplit, collapseWsAux_word_run u huall hune b rest,
            wordsOf_append_run u _ huall hune hcollapserest,
            wordsOf_append_run u rest huall hune hresthead,
            ih rest hrestlen false]
        · rw [Bool.not_eq_true] at hword
          have hstep : collapseWsAux b (c :: cs) = c :: collapseWsAux false cs := by
            simp [collapseWsAux, hc]
          rw [hstep, wordsOf_cons_nonword hword, wordsOf_cons_nonword hword,
            ih cs (by simpa using Nat.succ_le_succ_iff.mp hl) false]

/-- Collapsing whitespace leaves no two adjacent whitespace characters. -/
theorem hasDoubleWs_collapseWsAux (l : List Char) :
    ∀ b : Bool, hasDoubleWs (collapseWsAux b l) = false := by
  induction l with
  | nil => intro b; rfl
  | cons c cs ih =>
    intro b
    by_cases hc : isPySpace c = true
    · simp only [collapseWsAux, hc, if_true]
      cases b with
      | true => exact ih true
      | false =>
        simp only [Bool.false_eq_true, if_false]
        rcases hx : collapseWsAux true cs with _ | ⟨d, ds⟩
        · rfl
        · have hd := collapseWsAux_true_head cs d ds hx
          simp only [hasDoubleWs, hd, Bool.and_false, Bool.false_or]
          rw [← hx]
          exact ih true
    · rw [Bool.not_eq_true] at hc
      simp only [collapseWsAux, hc, Bool.false_eq_true, if_false]
      rcases hx : collapseWsAux false cs with _ | ⟨d, ds⟩
      · rfl
      · simp only [hasDoubleWs, hc, Bool.false_and, Bool.false_or]
        rw [← hx]
        exact ih false

/-! ## Scanner lemmas for the title-token substitution -/

theorem reSubAux_nil (useDot : Bool) (toks : List (List Char)) (k : Nat) (b : Bool) :
    reSubAux useDot toks k b [] = [] := by cases k <;> rfl

theorem reSubAux_skip_cons (useDot : Bool) (toks : List (List Char)) (skip : Nat)
    (b : Bool) (c : Char) (cs : List Char) :
    reSubAux useDot toks (skip + 1) b (c :: cs) =
      reSubAux useDot toks skip (!isWordChar c) cs := rfl

theorem reSubAux_zero_cons (useDot : Bool) (toks : List (List Char)) (b : Bool)
    (c : Char) (cs : List Char) :
    reSubAux useDot toks 0 b (c :: cs) =
      if b then
        match tokMatchLen useDot toks (c :: cs) with
        | some n => reSubAux useDot toks (n - 1) (!isWordChar c) cs
        | none => c :: reSubAux useDot toks 0 (!isWordChar c) cs
      else c :: reSubAux useDot toks 0 (!isWordChar c) cs := rfl

/-- Skipping over a run consumes it and leaves the boundary state of its
last character. -/
theorem reSubAux_skip_run (useDot : Bool) (toks : List (List Char)) :
    ∀ (u : List Char) (a : Char) (b : Bool) (t : List Char),
    reSubAux useDot toks (u.length + 1) b (u ++ a :: t) =
      reSubAux useDot toks 0 (!isWordChar a) t := by
  intro u
  induction u with
  | nil => intro a b t; rfl
  | cons c u ih =>
    intro a b t
    rw [List.cons_append, show (c :: u).length + 1 = (u.length + 1) + 1 from rfl,
      reSubAux_skip_cons]
    exact ih a (!isWordChar c) t

/-- In the middle of a word no match is attempted: a word-character run is
copied unchanged. -/
theorem reSubAux_false_word_run (useDot : Bool) (toks : List (List Char)) :
    ∀ (u t : List Char), u.all isWordChar = true →
    reSubAux useDot toks 0 false (u ++ t) = u ++ reSubAux useDot toks 0 false t := by
  intro u
  induction u with
  | nil => intro t _; rfl
  | cons c u ih =>
    intro t hu
    simp only [List.all_cons, Bool.and_eq_true] at hu
    rw [List.cons_append, reSubAux_zero_cons]
    simp only [Bool.false_eq_true, if_false, hu.1, Bool.not_true]
    rw [ih t hu.2, List.cons_append]

/-- No token matches at a non-word character. -/
theorem tokMatchLen_nonword_head (useDot : Bool) (toks : List (List Char))
    (ht : ∀ t ∈ toks, t ≠ [] ∧ t.all isWordChar = true)
    (c : Char) (cs : List Char) (hc : isWordChar c = false) :
    tokMatchLen useDot toks (c :: cs) = none := by
  rw [tokMatchLen, List.findSome?_eq_none_iff]
  intro t htmem
  rcases ht t htmem with ⟨hne, hall⟩
  rcases t with _ | ⟨a, t'⟩
  · exact absurd rfl hne
  · simp only [List.all_cons, Bool.and_eq_true] at hall
    have hpre : ((a :: t').isPrefixOf (c :: cs)) = false := by
      rw [show ((a :: t').isPrefixOf (c :: cs)) = (a == c && t'.isPrefixOf cs) from rfl]
      by_cases hac : a = c
      · subst hac; rw [hall.1] at hc; cases hc
      · simp [hac]
    simp [hpre]

/-- At a word boundary a token that matches with a boundary after it is
exactly the maximal word run starting there. -/
theorem prefix_word_eq_takeWhile :
    ∀ (t s : List Char), t.all isWordChar = true → t.isPrefixOf s = true →
      (s.drop t.length = [] ∨ ∃ c cs, s.drop t.length = c :: cs ∧ isWordChar c = false) →
      t = s.takeWhile isWordChar := by
  intro t
  induction t with
  | nil =>
    intro s _ _ hb
    simp only [List.length_nil, List.drop_zero] at hb
    rcases hb with rfl | ⟨c, cs, rfl, hc⟩
    · rfl
    · rw [List.takeWhile_cons_of_neg (by simp [hc])]
  | cons a t' ih =>
    intro s hall hpre hb
    rcases s with _ | ⟨b, s'⟩
    · simp [List.isPrefixOf] at hpre
    · simp only [List.all_cons, Bool.and_eq_true] at hall
      rw [show ((a :: t').isPrefixOf (b :: s')) = (a == b && t'.isPrefixOf s') from rfl,
        Bool.and_eq_true, beq_iff_eq] at hpre
      obtain ⟨rfl, hpre'⟩ := hpre
      rw [List.takeWhile_cons_of_pos hall.1]
      rw [← ih s' hall.2 hpre' (by simpa using hb)]

/-- Dropping the length of the leading word run reaches the rest of the
string. -/
theorem drop_takeWhile_length (p : Char → Bool) (l : List Char) :
    l.drop (l.takeWhile p).length = l.dropWhile p := by
  have h := List.takeWhile_append_dropWhile p l
  calc l.drop (l.takeWhile p).length
      = ((l.takeWhile p) ++ l.dropWhile p).drop (l.takeWhile p).length := by rw [h]
    _ = l.dropWhile p := List.drop_left _ _

/-- findSome? over a list where one element yields a value and every
element yields nothing or that same value. -/
theorem findSome?_of_unique {α β : Type} (l : List α) (f : α → Option β) (a : α) (v : β)
    (hmem : a ∈ l) (hfa : f a = some v)
    (huniq : ∀ x ∈ l, f x = none ∨ f x = some v) :
    l.findSome? f = some v := by
  induction l with
  | nil => cases hmem
  | cons x xs ih =>
    rw [List.findSome?_cons]
    rcases List.mem_cons.mp hmem with rfl | hmem'
    · rw [hfa]
    · rcases huniq x (List.mem_cons_self x xs) with hx | hx
      · rw [hx]
        exact ih hmem' (fun y hy => huniq y (List.mem_cons_of_mem x hy))
      · rw [hx]

/-- The match length at a word run that is a token: the token itself plus,
in dot mode, one following period. -/
theorem tokMatchLen_token (useDot : Bool) (toks : List (List Char)) (s : List Char)
    (ht : ∀ t ∈ toks, t ≠ [] ∧ t.all isWordChar = true)
    (hw : s.takeWhile isWordChar ∈ toks) :
    tokMatchLen useDot toks s = some (
      match s.dropWhile isWordChar with
      | [] => (s.takeWhile isWordChar).length
      | c :: _ => if useDot && c = '.' then (s.takeWhile isWordChar).length + 1
                  else (s.takeWhile isWordChar).length) := by
  have hdropc : ∀ c cs, s.dropWhile isWordChar = c :: cs → isWordChar c = false := by
    intro c cs hcc
    exact head?_dropWhile isWordChar s c (by rw [hcc]; rfl)
  rw [tokMatchLen]
  refine findSome?_of_unique toks _ (s.takeWhile isWordChar) _ hw ?_ ?_
  · dsimp only
    have hpre : (s.takeWhile isWordChar).isPrefixOf s = true :=
      List.isPrefixOf_iff_prefix.mpr (List.takeWhile_prefix isWordChar)
    rw [if_pos hpre, drop_takeWhile_length]
    rcases hd : s.dropWhile isWordChar with _ | ⟨c, cs⟩
    · rfl
    · dsimp only
      rw [hdropc c cs hd]
      simp only [Bool.false_eq_true, if_false]
      by_cases hdot : useDot = true ∧ c = '.' <;> simp [hdot]
  · intro x hx
    rcases ht x hx with ⟨hne, hall⟩
    try dsimp only
    by_cases hpre : x.isPrefixOf s = true
    · rw [if_pos hpre]
      rcases hdd : s.drop x.length with _ | ⟨c, cs⟩
      · have hxw : x = s.takeWhile isWordChar :=
          prefix_word_eq_takeWhile x s hall hpre (Or.inl hdd)
        right
        have hdw : s.dropWhile isWordChar = [] := by
          rw [← drop_takeWhile_length, ← hxw, hdd]
        rw [hdw, hxw]
      · by_cases hcw : isWordChar c = true
        · left
          simp [hcw]
        · rw [Bool.not_eq_true] at hcw
          have hxw : x = s.takeWhile isWordChar :=
            prefix_word_eq_takeWhile x s hall hpre (Or.inr ⟨c, cs, hdd, hcw⟩)
          right
          have hdw : s.dropWhile isWordChar = c :: cs := by
            rw [← drop_takeWhile_length, ← hxw, hdd]
          rw [hdw]
          dsimp only
          rw [hcw, hxw]
          simp only [Bool.false_eq_true, if_false]
          by_cases hdot : useDot = true ∧ c = '.' <;> simp [hdot]
    · rw [Bool.not_eq_true] at hpre
      left
      simp [hpre]

/-- The rest after a maximal word run is empty or starts with a non-word
character. -/
theorem dropWhile_head_shape (p : Char → Bool) (l : List Char) :
    l.dropWhile p = [] ∨ ∃ c cs, l.dropWhile p = c :: cs ∧ p c = false := by
  rcases h : l.dropWhile p with _ | ⟨c, cs⟩
  · exact Or.inl rfl
  · exact Or.inr ⟨c, cs, rfl, head?_dropWhile p l c (by rw [h]; rfl)⟩

/-- No token matches at a word run that is not a token. -/
theorem tokMatchLen_no_token (useDot : Bool) (toks : List (List Char)) (s : List Char)
    (ht : ∀ t ∈ toks, t ≠ [] ∧ t.all isWordChar = true)
    (hw : s.takeWhile isWordChar ∉ toks) :
    tokMatchLen useDot toks s = none := by
  rw [tokMatchLen, List.findSome?_eq_none_iff]
  intro x hx
  rcases ht x hx with ⟨hne, hall⟩
  try dsimp only
  by_cases hpre : x.isPrefixOf s = true
  · rw [if_pos hpre]
    rcases hdd : s.drop x.length with _ | ⟨c, cs⟩
    · exact absurd ((prefix_word_eq_takeWhile x s hall hpre (Or.inl hdd)) ▸ hx) hw
    · by_cases hcw : isWordChar c = true
      · simp [hcw]
      · rw [Bool.not_eq_true] at hcw
        exact absurd
          ((prefix_word_eq_takeWhile x s hall hpre (Or.inr ⟨c, cs, hdd, hcw⟩)) ▸ hx) hw
  · rw [Bool.not_eq_true] at hpre
    simp [hpre]

/-- The scan copies a non-word character at a boundary. -/
theorem reSubAux_true_nonword (useDot : Bool) (toks : List (List Char))
    (ht : ∀ t ∈ toks, t ≠ [] ∧ t.all isWordChar = true)
    (c : Char) (cs : List Char) (hc : isWordChar c = false) :
    reSubAux useDot toks 0 true (c :: cs) = c :: reSubAux useDot toks 0 true cs := by
  rw [reSubAux_zero_cons, if_pos rfl, tokMatchLen_nonword_head useDot toks ht c cs hc, hc]
  rfl

/-- At a non-word position, starting without or with the boundary flag is
the same. -/
theorem reSubAux_false_eq_true (useDot : Bool) (toks : List (List Char))
    (ht : ∀ t ∈ toks, t ≠ [] ∧ t.all isWordChar = true)
    (t : List Char) (hbnd : t = [] ∨ ∃ c cs, t = c :: cs ∧ isWordChar c = false) :
    reSubAux useDot toks 0 false t = reSubAux useDot toks 0 true t := by
  rcases hbnd with rfl | ⟨c, cs, rfl, hc⟩
  · rfl
  · rw [reSubAux_zero_cons, reSubAux_zero_cons, if_pos rfl,
      tokMatchLen_nonword_head useDot toks ht c cs hc]
    simp [Bool.false_eq_true]

/-- The scan copies a whole word run that is not a token. -/
theorem reSubAux_true_word_notok (useDot : Bool) (toks : List (List Char))
    (ht : ∀ t ∈ toks, t ≠ [] ∧ t.all isWordChar = true)
    (c : Char) (cs : List Char) (hcw : isWordChar c = true)
    (hnot : (c :: cs).takeWhile isWordChar ∉ toks) :
    reSubAux useDot toks 0 true (c :: cs) =
      (c :: cs).takeWhile isWordChar ++
        reSubAux useDot toks 0 true ((c :: cs).dropWhile isWordChar) := by
  have htw : (c :: cs).takeWhile isWordChar = c :: cs.takeWhile isWordChar :=
    List.takeWhile_cons_of_pos hcw
  have hdw : (c :: cs).dropWhile isWordChar = cs.dropWhile isWordChar := by
    simp [List.dropWhile_cons_of_pos hcw]
  have hall : (cs.takeWhile isWordChar).all isWordChar = true := by
    simp only [List.all_eq_true]
    exact fun x hx => List.mem_takeWhile_imp hx
  rw [reSubAux_zero_cons, if_pos rfl, tokMatchLen_no_token useDot toks (c :: cs) ht hnot,
    hcw, htw, hdw]
  show c :: reSubAux useDot toks 0 (!true) cs = _
  rw [Bool.not_true]
  conv_lhs => rw [show cs = cs.takeWhile isWordChar ++ cs.dropWhile isWordChar from
    (List.takeWhile_append_dropWhile isWordChar cs).symm]
  rw [reSubAux_false_word_run useDot toks _ _ hall,
    reSubAux_false_eq_true useDot toks ht _ (dropWhile_head_shape isWordChar cs),
    List.cons_append]

/-- A skip of the full length of the remaining text consumes it entirely. -/
theorem reSubAux_skip_all (useDot : Bool) (toks : List (List Char)) :
    ∀ (u : List Char) (b : Bool), reSubAux useDot toks u.length b u = [] := by
  intro u
  induction u with
  | nil => intro b; rfl
  | cons a u ih =>
    intro b
    rw [List.length_cons, reSubAux_skip_cons]
    exact ih _

/-- The scan drops a word run that is a token, together with a following
period in dot mode, and resumes at a boundary. -/
theorem reSubAux_true_word_token (useDot : Bool) (toks : List (List Char))
    (ht : ∀ t ∈ toks, t ≠ [] ∧ t.all isWordChar = true)
    (c : Char) (cs : List Char) (hcw : isWordChar c = true)
    (hw : (c :: cs).takeWhile isWordChar ∈ toks) :
    reSubAux useDot toks 0 true (c :: cs) =
      reSubAux useDot toks 0 true
        (if useDot = true ∧ ((c :: cs).dropWhile isWordChar).head? = some '.'
         then ((c :: cs).dropWhile isWordChar).tail
         else (c :: cs).dropWhile isWordChar) := by
  have htw : (c :: cs).takeWhile isWordChar = c :: cs.takeWhile isWordChar :=
    List.takeWhile_cons_of_pos hcw
  have hdw : (c :: cs).dropWhile isWordChar = cs.dropWhile isWordChar := by
    simp [List.dropWhile_cons_of_pos hcw]
  have hsplit : cs = cs.takeWhile isWordChar ++ cs.dropWhile isWordChar :=
    (List.takeWhile_append_dropWhile isWordChar cs).symm
  rw [reSubAux_zero_cons, if_pos rfl, tokMatchLen_token useDot toks (c :: cs) ht hw]
  try dsimp only
  rw [hcw, Bool.not_true, hdw, htw]
  rcases hrest : cs.dropWhile isWordChar with _ | ⟨d, ds⟩
  · have hcs : cs = cs.takeWhile isWordChar := by
      conv_lhs => rw [hsplit]
      rw [hrest, List.append_nil]
    try dsimp only
    simp only [List.length_cons, Nat.add_sub_cancel]
    rw [show (if useDot = true ∧ ([] : List Char).head? = some ('.')
        then ([] : List Char).tail else ([] : List Char)) = ([] : List Char) from by simp]
    rw [reSubAux_nil]
    set u := cs.takeWhile isWordChar with hu
    rw [hcs]
    exact reSubAux_skip_all useDot toks u false
  · have hdnw : isWordChar d = false :=
      head?_dropWhile isWordChar cs d (by rw [hrest]; rfl)
    have hsplit2 : cs = cs.takeWhile isWordChar ++ (d :: ds) := by
      conv_lhs => rw [hsplit]
      rw [hrest]
    set w' := cs.takeWhile isWordChar with hwdef
    by_cases hdot : useDot = true ∧ d = '.'
    · have hcondR : useDot = true ∧ ((d :: ds) : List Char).head? = some ('.') := by
        refine ⟨hdot.1, ?_⟩
        rw [show ((d :: ds) : List Char).head? = some d from rfl, hdot.2]
      rw [if_pos hcondR]
      have hna : (useDot && decide (d = '.')) = true := by simp [hdot.1, hdot.2]
      try dsimp only
      rw [hna]
      simp only [if_true, List.length_cons, Nat.add_sub_cancel]
      rw [hsplit2, reSubAux_skip_run, hdnw]
      rfl
    · have hcondR : ¬ (useDot = true ∧ ((d :: ds) : List Char).head? = some ('.')) := by
        intro hcontra
        refine hdot ⟨hcontra.1, ?_⟩
        have : some d = some ('.') := hcontra.2
        simpa using this
      rw [if_neg hcondR]
      have hna : (useDot && decide (d = '.')) = false := by
        cases hu : useDot with
        | false => simp
        | true =>
          have hd : d ≠ '.' := fun h => hdot ⟨hu, h⟩
          simp [hd]
      try dsimp only
      rw [hna]
      simp only [Bool.false_eq_true, if_false, List.length_cons, Nat.add_sub_cancel]
      rw [hsplit2]
      rcases List.eq_nil_or_concat w' with h0 | ⟨u0, a, hua⟩
      · rw [h0]
        simp only [List.nil_append, List.length_nil]
        exact reSubAux_false_eq_true useDot toks ht _ (Or.inr ⟨d, ds, rfl, hdnw⟩)
      · have haw : isWordChar a = true := by
          have ha : a ∈ w' := by rw [hua]; simp
          rw [hwdef] at ha
          exact List.mem_takeWhile_imp ha
        rw [List.concat_eq_append] at hua
        rw [hua]
        rw [show (u0 ++ [a]).length = u0.length + 1 from by simp]
        rw [show (u0 ++ [a]) ++ d :: ds = u0 ++ a :: (d :: ds) from by
          simp [List.append_assoc]]
        rw [reSubAux_skip_run, haw, Bool.not_true]
        exact reSubAux_false_eq_true useDot toks ht _ (Or.inr ⟨d, ds, rfl, hdnw⟩)

/-- The head of the substituted text at a boundary position is empty or a
non-word character whenever the input is. -/
theorem reSub_head_shape (useDot : Bool) (toks : List (List Char))
    (ht : ∀ t ∈ toks, t ≠ [] ∧ t.all isWordChar = true)
    (t : List Char) (hbnd : t = [] ∨ ∃ c cs, t = c :: cs ∧ isWordChar c = false) :
    reSubAux useDot toks 0 true t = [] ∨
      ∃ d ds, reSubAux useDot toks 0 true t = d :: ds ∧ isWordChar d = false := by
  rcases hbnd with rfl | ⟨c, cs, rfl, hc⟩
  · exact Or.inl rfl
  · exact Or.inr ⟨c, _, reSubAux_true_nonword useDot toks ht c cs hc, hc⟩

/-- The substitution pass keeps exactly the words that are not tokens. -/
theorem wordsOf_reSub (useDot : Bool) (toks : List (List Char))
    (ht : ∀ t ∈ toks, t ≠ [] ∧ t.all isWordChar = true) :
    ∀ (n : Nat) (s : List Char), s.length ≤ n →
    wordsOf (reSubAux useDot toks 0 true s) =
      (wordsOf s).filter (fun w => decide (w ∉ toks)) := by
  intro n
  induction n with
  | zero =>
    intro s hs
    rw [List.length_eq_zero.mp (Nat.le_zero.mp hs)]
    rfl
  | succ n ih =>
    intro s hs
    rcases s with _ | ⟨c, cs⟩
    · rfl
    · by_cases hcw : isWordChar c = true
      · have hsplit : c :: cs = (c :: cs).takeWhile isWordChar ++
            (c :: cs).dropWhile isWordChar :=
          (List.takeWhile_append_dropWhile isWordChar (c :: cs)).symm
        have htwne : (c :: cs).takeWhile isWordChar ≠ [] := by
          rw [List.takeWhile_cons_of_pos hcw]
          exact List.cons_ne_nil _ _
        have htwall : ((c :: cs).takeWhile isWordChar).all isWordChar = true := by
          simp only [List.all_eq_true]
          exact fun x hx => List.mem_takeWhile_imp hx
        have hrlen : ((c :: cs).dropWhile isWordChar).length ≤ n := by
          have h1 : ((c :: cs).dropWhile isWordChar).length <
              (c :: cs).length := by
            conv_rhs => rw [hsplit]
            rw [List.length_append]
            have := List.length_pos.mpr htwne
            omega
          have h2 := hs
          simp only [List.length_cons] at h1 h2 ⊢
          omega
        have hrshape := dropWhile_head_shape isWordChar (c :: cs)
        have hwords : wordsOf (c :: cs) =
            (c :: cs).takeWhile isWordChar :: wordsOf ((c :: cs).dropWhile isWordChar) := by
          conv_lhs => rw [hsplit]
          exact wordsOf_append_run _ _ htwall htwne hrshape
        by_cases htok : (c :: cs).takeWhile isWordChar ∈ toks
        · rw [reSubAux_true_word_token useDot toks ht c cs hcw htok]
          rcases hrest : (c :: cs).dropWhile isWordChar with _ | ⟨d, ds⟩
          · rw [show (if useDot = true ∧ ([] : List Char).head? = some ('.')
                then ([] : List Char).tail else ([] : List Char)) = ([] : List Char)
                from by simp]
            rw [hwords, hrest]
            simp [wordsOf, wordsAux, htok]
          · have hrlen' : (d :: ds).length ≤ n := by rw [← hrest]; exact hrlen
            have hdnw : isWordChar d = false := by
              rcases hrshape with h0 | ⟨d', ds', hd', hnw⟩
              · rw [h0] at hrest; cases hrest
              · rw [hd'] at hrest
                cases hrest
                exact hnw
            by_cases hdot : useDot = true ∧ ((d :: ds) : List Char).head? = some ('.')
            · rw [if_pos hdot]
              have hdd : d = '.' := by
                have := hdot.2
                simpa using this
              rw [show ((d :: ds) : List Char).tail = ds from rfl]
              rw [ih ds (by simpa using Nat.le_of_succ_le (Nat.succ_le_succ hrlen'))]
              rw [hwords, hrest]
              have : wordsOf (d :: ds) = wordsOf ds := wordsOf_cons_nonword hdnw ds
              rw [show (List.filter (fun w => decide (w ∉ toks))
                  ((c :: cs).takeWhile isWordChar :: wordsOf (d :: ds))) =
                  List.filter (fun w => decide (w ∉ toks)) (wordsOf (d :: ds)) from by
                simp [List.filter, htok]]
              rw [this]
            · rw [if_neg hdot]
              rw [ih (d :: ds) hrlen']
              rw [hwords, hrest]
              simp [List.filter, htok, wordsOf_cons_nonword hdnw ds]
        · rw [reSubAux_true_word_notok useDot toks ht c cs hcw htok]
          have hsubshape := reSub_head_shape useDot toks ht _ hrshape
          rw [wordsOf_append_run _ _ htwall htwne hsubshape, hwords]
          rw [ih _ hrlen]
          simp [List.filter, htok]
      · rw [Bool.not_eq_true] at hcw
        rw [reSubAux_true_nonword useDot toks ht c cs hcw,
          wordsOf_cons_nonword hcw, wordsOf_cons_nonword hcw,
          ih cs (by simpa using Nat.succ_le_succ_iff.mp hs)]

/-- The substitution pass is the identity on a string none of whose words
is a token. -/
theorem reSub_id_of_no_token (useDot : Bool) (toks : List (List Char))
    (ht : ∀ t ∈ toks, t ≠ [] ∧ t.all isWordChar = true) :
    ∀ (n : Nat) (s : List Char), s.length ≤ n →
    (∀ w ∈ wordsOf s, w ∉ toks) → reSubAux useDot toks 0 true s = s := by
  intro n
  induction n with
  | zero =>
    intro s hs _
    rw [List.length_eq_zero.mp (Nat.le_zero.mp hs)]
    rfl
  | succ n ih =>
    intro s hs hw
    rcases s with _ | ⟨c, cs⟩
    · rfl
    · by_cases hcw : isWordChar c = true
      · have hsplit : c :: cs = (c :: cs).takeWhile isWordChar ++
            (c :: cs).dropWhile isWordChar :=
          (List.takeWhile_append_dropWhile isWordChar (c :: cs)).symm
        have htwne : (c :: cs).takeWhile isWordChar ≠ [] := by
          rw [List.takeWhile_cons_of_pos hcw]
          exact List.cons_ne_nil _ _
        have htwall : ((c :: cs).takeWhile isWordChar).all isWordChar = true := by
          simp only [List.all_eq_true]
          exact fun x hx => List.mem_takeWhile_imp hx
        have hrshape := dropWhile_head_shape isWordChar (c :: cs)
        have hwords : wordsOf (c :: cs) =
            (c :: cs).takeWhile isWordChar :: wordsOf ((c :: cs).dropWhile isWordChar) := by
          conv_lhs => rw [hsplit]
          exact wordsOf_append_run _ _ htwall htwne hrshape
        have hrlen : ((c :: cs).dropWhile isWordChar).length ≤ n := by
          have h1 : ((c :: cs).dropWhile isWordChar).length < (c :: cs).length := by
            conv_rhs => rw [hsplit]
            rw [List.length_append]
            have := List.length_pos.mpr htwne
            omega
          have h2 := hs
          simp only [List.length_cons] at h1 h2 ⊢
          omega
        have htok : (c :: cs).takeWhile isWordChar ∉ toks := by
          apply hw
          rw [hwords]
          exact List.mem_cons_self _ _
        rw [reSubAux_true_word_notok useDot toks ht c cs hcw htok]
        rw [ih _ hrlen (fun w hwmem => hw w (by rw [hwords]; exact List.mem_cons_of_mem _ hwmem))]
        exact hsplit.symm
      · rw [Bool.not_eq_true] at hcw
        rw [reSubAux_true_nonword useDot toks ht c cs hcw]
        rw [ih cs (by simpa using Nat.succ_le_succ_iff.mp hs)
          (fun w hwmem => hw w (by rw [wordsOf_cons_nonword hcw]; exact hwmem))]

/-- Every character the substitution emits comes from the input. -/
theorem reSubAux_chars (useDot : Bool) (toks : List (List Char)) :
    ∀ (s : List Char) (k : Nat) (b : Bool) (c : Char),
    c ∈ reSubAux useDot toks k b s → c ∈ s := by
  intro s
  induction s with
  | nil =>
    intro k b c h
    rw [reSubAux_nil] at h
    cases h
  | cons a as ih =>
    intro k b c h
    rcases k with _ | k'
    · rw [reSubAux_zero_cons] at h
      cases b with
      | false =>
        simp only [Bool.false_eq_true, if_false, List.mem_cons] at h
        rcases h with rfl | h
        · exact List.mem_cons_self _ _
        · exact List.mem_cons_of_mem a (ih 0 _ c h)
      | true =>
        simp only [if_true] at h
        rcases htm : tokMatchLen useDot toks (a :: as) with _ | n
        · rw [htm] at h
          simp only [List.mem_cons] at h
          rcases h with rfl | h
          · exact List.mem_cons_self _ _
          · exact List.mem_cons_of_mem a (ih 0 _ c h)
        · rw [htm] at h
          exact List.mem_cons_of_mem a (ih (n - 1) _ c h)
    · rw [reSubAux_skip_cons] at h
      exact List.mem_cons_of_mem a (ih k' _ c h)

/-! ## Assembling C7 -/

theorem titleToks1_wf : ∀ t ∈ titleToks1, t ≠ [] ∧ t.all isWordChar = true := by decide

theorem titleToks2_wf : ∀ t ∈ titleToks2, t ≠ [] ∧ t.all isWordChar = true := by decide

/-- The words of a normalized name are the words of the lowercased input
with both token lists filtered out. -/
theorem wordsOf_preprocess (s : String) :
    wordsOf ((preprocess_name (.str s)).toList) =
      ((wordsOf (s.toList.map pyLowerChar)).filter
        (fun w => decide (w ∉ titleToks1))).filter
        (fun w => decide (w ∉ titleToks2)) := by
  show wordsOf ((String.mk (pyStripList (collapseWs (pyStripList (reSubTokens false titleToks2
    (pyStripList (reSubTokens true titleToks1 (s.toList.map pyLowerChar)))))))).toList) = _
  rw [toList_mk, wordsOf_strip, collapseWs,
    wordsOf_collapseWsAux (pyStripList (reSubTokens false titleToks2
      (pyStripList (reSubTokens true titleToks1 (s.toList.map pyLowerChar))))).length _
      le_rfl false,
    wordsOf_strip, reSubTokens,
    wordsOf_reSub false titleToks2 titleToks2_wf
      (pyStripList (reSubTokens true titleToks1 (s.toList.map pyLowerChar))).length _ le_rfl,
    wordsOf_strip, reSubTokens,
    wordsOf_reSub true titleToks1 titleToks1_wf
      (s.toList.map pyLowerChar).length _ le_rfl]

theorem hasDoubleWs_tail (a : Char) (t : List Char) (h : hasDoubleWs (a :: t) = false) :
    hasDoubleWs t = false := by
  rcases t with _ | ⟨b, t'⟩
  · rfl
  · simp only [hasDoubleWs, Bool.or_eq_false_iff] at h
    exact h.2

theorem hasDoubleWs_append_right (u v : List Char) (h : hasDoubleWs (u ++ v) = false) :
    hasDoubleWs v = false := by
  induction u with
  | nil => exact h
  | cons a u ih => exact ih (hasDoubleWs_tail a _ h)

theorem hasDoubleWs_append_left (u v : List Char) (h : hasDoubleWs (u ++ v) = false) :
    hasDoubleWs u = false := by
  induction u with
  | nil => rfl
  | cons a u ih =>
    rcases u with _ | ⟨b, u'⟩
    · rfl
    · have h' : hasDoubleWs (a :: b :: (u' ++ v)) = false := h
      simp only [hasDoubleWs, Bool.or_eq_false_iff] at h' ⊢
      exact ⟨h'.1, ih h'.2⟩

theorem hasDoubleWs_strip (l : List Char) (h : hasDoubleWs l = false) :
    hasDoubleWs (pyStripList l) = false := by
  have h1 : hasDoubleWs (l.dropWhile isPySpace) = false := by
    have h' := h
    rw [show l = l.takeWhile isPySpace ++ l.dropWhile isPySpace from
      (List.takeWhile_append_dropWhile isPySpace l).symm] at h'
    exact hasDoubleWs_append_right _ _ h'
  rcases pyStripList_prefix_dropWhile l with ⟨t, ht⟩
  rw [← ht] at h1
  exact hasDoubleWs_append_left _ _ h1

/-- C7.  Non-string inputs normalize to the empty string; a normalized
string contains none of the honorific tokens of the specification as a
standalone word, and no run of two adjacent whitespace characters. -/
theorem claim_C7 :
    (∀ v : PyValue, (∀ s, v ≠ PyValue.str s) → preprocess_name v = "") ∧
    ∀ s : String,
      (∀ t ∈ honorificToks, t.toList ∉ wordsOf ((preprocess_name (.str s)).toList)) ∧
      hasDoubleWs ((preprocess_name (.str s)).toList) = false := by
  constructor
  · intro v hv
    cases v with
    | str s => exact absurd rfl (hv s)
    | int n => rfl
    | float q => rfl
    | bool b => rfl
    | pynone => rfl
    | dateV d => rfl
    | datetimeV d t => rfl
  · intro s
    constructor
    · intro t htmem hmem
      rw [wordsOf_preprocess] at hmem
      have h2 := List.mem_filter.mp hmem
      have h1 := List.mem_filter.mp h2.1
      have hsplit : t.toList ∈ titleToks1 ∨ t.toList ∈ titleToks2 := by
        rw [honorificToks] at htmem
        simp only [List.mem_cons, List.not_mem_nil, or_false] at htmem
        rcases htmem with rfl | rfl | rfl | rfl | rfl | rfl | rfl | rfl | rfl | rfl <;> decide
      rcases hsplit with h | h
      · exact (of_decide_eq_true h1.2) h
      · exact (of_decide_eq_true h2.2) h
    · show hasDoubleWs ((String.mk (pyStripList (collapseWs (pyStripList
        (reSubTokens false titleToks2 (pyStripList (reSubTokens true titleToks1
          (s.toList.map pyLowerChar)))))))).toList) = false
      rw [toList_mk]
      exact hasDoubleWs_strip _ (hasDoubleWs_collapseWsAux _ false)

/-- Witness for C7 at a concrete honorific-laden name: the honorific dr is
gone and the double spaces are collapsed. -/
theorem claim_C7_witness :
    preprocess_name (.int 3) = "" ∧
      ("dr".toList ∉ wordsOf ((preprocess_name (.str " Dr.  Juan   Perez ")).toList)) ∧
      hasDoubleWs ((preprocess_name (.str " Dr.  Juan   Perez ")).toList) = false :=
  ⟨claim_C7.1 (.int 3) (fun s h => PyValue.noConfusion h),
   (claim_C7.2 " Dr.  Juan   Perez ").1 "dr" (by decide),
   (claim_C7.2 " Dr.  Juan   Perez ").2⟩

/-! ## Assembling C8: idempotence of the name normalizer -/

theorem pyLowerChar_idem (c : Char) : pyLowerChar (pyLowerChar c) = pyLowerChar c := by
  by_cases h : 65 ≤ c.toNat ∧ c.toNat ≤ 90
  · have hval : (Char.ofNat (c.toNat + 32)).toNat = c.toNat + 32 := by
      have hv : (c.toNat + 32).isValidChar := Or.inl (by omega)
      rw [Char.ofNat, dif_pos hv]
      rfl
    have hinner : pyLowerChar c = Char.ofNat (c.toNat + 32) := by
      rw [pyLowerChar, if_pos h]
    rw [hinner, pyLowerChar, hval, if_neg (by omega)]
  · have hc : pyLowerChar c = c := by rw [pyLowerChar, if_neg h]
    rw [hc, hc]

theorem pyLowerChar_space : pyLowerChar ' ' = ' ' := by decide

theorem map_id_of_mem {l : List Char} {f : Char → Char} (h : ∀ c ∈ l, f c = c) :
    l.map f = l := by
  induction l with
  | nil => rfl
  | cons a l ih =>
    rw [List.map_cons, h a (List.mem_cons_self a l),
      ih (fun c hc => h c (List.mem_cons_of_mem a hc))]

theorem mem_pyStripList (l : List Char) (c : Char) (h : c ∈ pyStripList l) : c ∈ l := by
  have h1 := (pyStripList_prefix_dropWhile l).subset h
  exact (List.dropWhile_sublist _).subset h1

/-- Every character of a normalized name is a space or the lowercase image
of an input character. -/
theorem preprocess_chars (s : String) (c : Char)
    (h : c ∈ (preprocess_name (.str s)).toList) :
    c = ' ' ∨ ∃ c0, c0 ∈ s.toList ∧ c = pyLowerChar c0 := by
  have h1 : c ∈ collapseWsAux false (pyStripList (reSubTokens false titleToks2
      (pyStripList (reSubTokens true titleToks1 (s.toList.map pyLowerChar))))) :=
    mem_pyStripList _ _ h
  rcases collapseWsAux_chars _ false c h1 with h' | h'
  · exact Or.inl h'
  · have h2 := mem_pyStripList _ _ h'
    have h3 := reSubAux_chars false titleToks2 _ 0 true c h2
    have h4 := mem_pyStripList _ _ h3
    have h5 := reSubAux_chars true titleToks1 _ 0 true c h4
    rcases List.mem_map.mp h5 with ⟨c0, hc0, hc⟩
    exact Or.inr ⟨c0, hc0, hc.symm⟩

/-- Every whitespace character of a normalized name is the single space. -/
theorem preprocess_space_chars (s : String) (c : Char)
    (h : c ∈ (preprocess_name (.str s)).toList) (hsp : isPySpace c = true) : c = ' ' :=
  collapseWsAux_space_char _ false c (mem_pyStripList _ _ h) hsp

/-- No word of a normalized name is a title token. -/
theorem preprocess_words_no_toks (s : String) :
    ∀ w ∈ wordsOf ((preprocess_name (.str s)).toList),
      w ∉ titleToks1 ∧ w ∉ titleToks2 := by
  intro w hw
  rw [wordsOf_preprocess] at hw
  have h2 := List.mem_filter.mp hw
  have h1 := List.mem_filter.mp h2.1
  exact ⟨of_decide_eq_true h1.2, of_decide_eq_true h2.2⟩

theorem dropWhile_eq_self_of_head (p : Char → Bool) (l : List Char)
    (h : ∀ c, l.head? = some c → p c = false) : l.dropWhile p = l := by
  rcases l with _ | ⟨a, as⟩
  · rfl
  · rw [List.dropWhile_cons_of_neg]
    rw [h a rfl]
    simp

theorem pyStripList_idem (l : List Char) : pyStripList (pyStripList l) = pyStripList l := by
  show ((((pyStripList l).dropWhile isPySpace).reverse.dropWhile isPySpace)).reverse =
    pyStripList l
  rw [dropWhile_eq_self_of_head isPySpace _ (pyStripList_head? l),
    dropWhile_eq_self_of_head isPySpace (pyStripList l).reverse
      (fun c hc => pyStripList_getLast? l c (by rwa [List.head?_reverse] at hc)),
    List.reverse_reverse]

/-- Collapsing is the identity on text with no adjacent whitespace whose
whitespace is all plain spaces. -/
theorem collapseWsAux_eq_self : ∀ l : List Char, hasDoubleWs l = false →
    (∀ c ∈ l, isPySpace c = true → c = ' ') →
    collapseWsAux false l = l ∧
      ((l = [] ∨ ∃ d ds, l = d :: ds ∧ isPySpace d = false) →
        collapseWsAux true l = l) := by
  intro l
  induction l with
  | nil => exact fun _ _ => ⟨rfl, fun _ => rfl⟩
  | cons a as ih =>
    intro hnd hsp
    have hnd' : hasDoubleWs as = false := hasDoubleWs_tail a as hnd
    have hsp' : ∀ c ∈ as, isPySpace c = true → c = ' ' :=
      fun c hc => hsp c (List.mem_cons_of_mem a hc)
    obtain ⟨ihF, ihT⟩ := ih hnd' hsp'
    constructor
    · by_cases ha : isPySpace a = true
      · have ha' : a = ' ' := hsp a (List.mem_cons_self a as) ha
        rw [show collapseWsAux false (a :: as) = ' ' :: collapseWsAux true as from by
          simp [collapseWsAux, ha]]
        rw [ihT ?_, ha']
        rcases as with _ | ⟨b, bs⟩
        · exact Or.inl rfl
        · refine Or.inr ⟨b, bs, rfl, ?_⟩
          simp only [hasDoubleWs, Bool.or_eq_false_iff] at hnd
          rcases hnd with ⟨h1, _⟩
          rw [ha] at h1
          simpa using h1
      · rw [Bool.not_eq_true] at ha
        rw [show collapseWsAux false (a :: as) = a :: collapseWsAux false as from by
          simp [collapseWsAux, ha]]
        rw [ihF]
    · intro hhead
      rcases hhead with h0 | ⟨d, ds, hd, hdns⟩
      · cases h0
      · cases hd
        rw [show collapseWsAux true (a :: as) = a :: collapseWsAux false as from by
          simp [collapseWsAux, hdns]]
        rw [ihF]

theorem string_mk_toList (s : String) : String.mk s.toList = s := rfl

theorem preprocess_empty : preprocess_name (.str "") = "" := by decide

/-- C8.  The name normalizer is idempotent: normalizing a value that has
already been normalized (a string) changes nothing, for every input. -/
theorem claim_C8 (v : PyValue) :
    preprocess_name (.str (preprocess_name v)) = preprocess_name v := by
  cases v with
  | str s =>
    set r := preprocess_name (.str s) with hrdef
    have hform : r.toList = pyStripList (collapseWs (pyStripList (reSubTokens false titleToks2
        (pyStripList (reSubTokens true titleToks1 (s.toList.map pyLowerChar)))))) := by
      rw [hrdef]
      rfl
    have hchars : ∀ c ∈ r.toList, pyLowerChar c = c := by
      intro c hc
      rcases preprocess_chars s c hc with rfl | ⟨c0, _, rfl⟩
      · exact pyLowerChar_space
      · exact pyLowerChar_idem c0
    have hwords := preprocess_words_no_toks s
    have hnd : hasDoubleWs r.toList = false := by
      rw [hform]
      exact hasDoubleWs_strip _ (hasDoubleWs_collapseWsAux _ false)
    have hspaces : ∀ c ∈ r.toList, isPySpace c = true → c = ' ' :=
      fun c hc => preprocess_space_chars s c hc
    have hstrip : pyStripList r.toList = r.toList := by
      rw [hform]
      exact pyStripList_idem _
    show String.mk (pyStripList (collapseWs (pyStripList (reSubTokens false titleToks2
      (pyStripList (reSubTokens true titleToks1 (r.toList.map pyLowerChar))))))) = r
    rw [map_id_of_mem hchars,
      show reSubTokens true titleToks1 r.toList = r.toList from
        reSub_id_of_no_token true titleToks1 titleToks1_wf r.toList.length r.toList le_rfl
          (fun w hw => (hwords w hw).1),
      hstrip,
      show reSubTokens false titleToks2 r.toList = r.toList from
        reSub_id_of_no_token false titleToks2 titleToks2_wf r.toList.length r.toList le_rfl
          (fun w hw => (hwords w hw).2),
      hstrip,
      show collapseWs r.toList = r.toList from
        (collapseWsAux_eq_self r.toList hnd hspaces).1,
      hstrip]
    exact string_mk_toList r
  | int n => exact preprocess_empty
  | float q => exact preprocess_empty
  | bool b => exact preprocess_empty
  | pynone => exact preprocess_empty
  | dateV d => exact preprocess_empty
  | datetimeV d t => exact preprocess_empty

end IsaBackend
